import Mathlib

/-!
Verification of the dataflow graph scheduler (nodes, endpoints, edges,
graph dispatch) and its addressable pairing heap, by a shallow embedding
of the TypeScript source into Lean.

Data values carried on edges are modelled as `Int`; the TypeScript code is
generic (`any`) and never inspects the values, so any infinite type is a
faithful instantiation.
-/

namespace SpecModel

/-- The `DataFlowMode` enum from Endpoint.ts (`PUSH`, `PULL`). -/
inductive DataFlowMode where
  | push
  | pull
deriving DecidableEq, Repr

/-- The `NodeState` enum from Node.ts
(`PENDING`, `READY`, `RUNNING`, `COMPLETED`, `FAILED`, `CANCELLED`). -/
inductive NodeState where
  | pending
  | ready
  | running
  | completed
  | failed
  | cancelled
deriving DecidableEq, Repr

/-! ## Readiness predicate (claim C5)

Embedding of the object graph read by `Node.isReady`: the node state, its
input endpoints, and for each input endpoint the incident edges, each edge
carrying (a reference to) its source `OutputEndpoint`, of which `isReady`
only reads the buffer via `hasData()`. -/
/-- The part of `OutputEndpoint` read by `Node.isReady`: its local
`dataQueue` (the PULL-mode buffer), queried through `hasData()`. -/
structure OutputView where
  dataQueue : List Int
deriving DecidableEq, Repr

/-- Method `OutputEndpoint.hasData()`: `this.dataQueue.length > 0`. -/
def OutputView.hasData (ep : OutputView) : Bool :=
  ep.dataQueue.length > 0

/-- An edge as seen from its target input endpoint: `edge.source` is the
upstream output endpoint. -/
structure EdgeView where
  source : OutputView
deriving DecidableEq, Repr

/-- The part of `InputEndpoint` read by `Node.isReady`: mode, own buffer
(`dataQueue`) and incident edges. -/
structure InputView where
  dataFlowMode : DataFlowMode
  dataQueue : List Int
  edges : List EdgeView
deriving DecidableEq, Repr

/-- Method `InputEndpoint.hasData()`: `this.dataQueue.length > 0`. -/
def InputView.hasData (ep : InputView) : Bool :=
  ep.dataQueue.length > 0

/-- The part of `Node` read by `Node.isReady`: its state and input
endpoints (in map-insertion order). -/
structure NodeView where
  state : NodeState
  inputEndpoints : List InputView
deriving DecidableEq, Repr

/-- Embedding of `Node.isReady` (Node.ts): state must be PENDING; a node with no input
endpoints is ready; otherwise every input endpoint must have no incident
edges, or have data (PUSH mode), or have a connected upstream source with
data (PULL mode). -/
def NodeView.isReady (n : NodeView) : Bool :=
  if n.state ≠ NodeState.pending then
    false
  else if n.inputEndpoints.length = 0 then
    true
  else
    n.inputEndpoints.all fun ep =>
      if ep.edges.length = 0 then
        true
      else if ep.dataFlowMode = DataFlowMode.push then
        ep.hasData
      else
        ep.edges.any fun e => e.source.hasData

/-- The readiness predicate in the words of the specification: state is
Pending, and either no input endpoints, or every input endpoint has no
incident edges, or (Push) a non-empty buffer, or (Pull) some incident
edge whose upstream output endpoint has a non-empty buffer. -/
def specReady (n : NodeView) : Prop :=
  n.state = NodeState.pending ∧
  (n.inputEndpoints = [] ∨
    ∀ ep ∈ n.inputEndpoints,
      ep.edges = [] ∨
      (ep.dataFlowMode = DataFlowMode.push ∧ ep.dataQueue ≠ []) ∨
      (ep.dataFlowMode = DataFlowMode.pull ∧
        ∃ e ∈ ep.edges, e.source.dataQueue ≠ []))

/-! ## Node lifecycle and cancellation wiring (claims C2, C3)

Embedding of `Node.execute` / `Node.cancel` (Node.ts) together with
`Graph.createNodeContext` (GraphImpl.ts). `AbortController` objects are
modelled by an allocation world: a list of aborted-flags indexed by
allocation order; `new AbortController()` appends a fresh non-aborted
entry, `abort()` sets the entry, and a signal is the index of its
controller. -/
/-- The world of allocated `AbortController`s: entry `i` is the aborted
flag of the `i`-th allocated controller. -/
structure World where
  ctrls : List Bool
deriving DecidableEq, Repr

/-- Operation `new AbortController()`: returns the fresh controller (index) and the
grown world. -/
def World.newController (w : World) : Nat × World :=
  (w.ctrls.length, ⟨w.ctrls ++ [false]⟩)

/-- Operation `controller.abort()`. -/
def World.abortCtrl (w : World) (i : Nat) : World :=
  ⟨w.ctrls.set i true⟩

/-- Reads `signal.aborted` for the signal of controller `i`. -/
def World.aborted (w : World) (i : Nat) : Bool :=
  w.ctrls.getD i false

/-- The mutable part of `Node` touched by `execute`/`cancel`: the state
and the `abortController` field (`null` ↦ `none`, otherwise the index of
the allocated controller). -/
structure NodeCore where
  state : NodeState
  abortController : Option Nat
deriving DecidableEq, Repr

/-- Embedding of `Node.cancel()` (Node.ts): abort `this.abortController` when present,
then unconditionally set the state to CANCELLED. -/
def NodeCore.cancel (n : NodeCore) (w : World) : NodeCore × World :=
  let w2 := match n.abortController with
    | some c => w.abortCtrl c
    | none => w
  (⟨NodeState.cancelled, n.abortController⟩, w2)

/-- The entry of `Node.execute` (Node.ts): allocate a fresh
`AbortController` into `this.abortController` and set the state to
RUNNING, before awaiting `run`. -/
def NodeCore.executeStart (n : NodeCore) (w : World) : NodeCore × World :=
  let cw := w.newController
  (⟨NodeState.running, some cw.1⟩, cw.2)

/-- The exit of `Node.execute` (Node.ts): when `run` returns normally the
state is set to COMPLETED, when it throws the state is set to FAILED (and
the error is re-thrown); in both cases the `finally` block clears
`abortController`. -/
def NodeCore.executeFinish (n : NodeCore) (ok : Bool) : NodeCore :=
  ⟨if ok then NodeState.completed else NodeState.failed, none⟩

/-- Embedding of `Graph.createNodeContext` (GraphImpl.ts): allocates its own fresh
`AbortController` and exposes `signal` of that controller in the context;
returns the context signal. -/
def createNodeContext (w : World) : Nat × World :=
  w.newController

/-! ## Endpoint data transport (claims C8, C9)

Full embedding of `InputEndpoint` / `OutputEndpoint` buffer state and the
`pushData` / `pullData` operations (Endpoint.ts). Awaiters
(`dataPromises`) are modelled as a FIFO list of tokens; resolving an
awaiter is reported in the operation's effect. Since the edge lists hold
object references, the endpoints reached through them are passed
explicitly to the operations (`edge.target` for an output endpoint's
edges, `edge.source` for an input endpoint's edges, in insertion
order). -/
/-- Buffer state of `OutputEndpoint`: mode and local `dataQueue` (used as
the PULL-mode buffer). -/
structure OutputEndpoint where
  dataFlowMode : DataFlowMode
  dataQueue : List Int
deriving DecidableEq, Repr

/-- Buffer state of `InputEndpoint`: mode, FIFO `dataQueue`, and the
pending awaiters (`dataPromises`), oldest first. -/
structure InputEndpoint where
  dataFlowMode : DataFlowMode
  dataQueue : List Int
  dataPromises : List Nat
deriving DecidableEq, Repr

/-- What `InputEndpoint.pushData` did on success: resolved the oldest
pending awaiter with the value, or appended the value to the buffer. -/
inductive PushEffect where
  | resolved (awaiter : Nat) (v : Int)
  | buffered
deriving DecidableEq, Repr

/-- Embedding of `InputEndpoint.pushData` (Endpoint.ts): throws unless the mode is
PUSH; otherwise `dataPromises.shift()` — when an awaiter is pending it is
resolved with the value and nothing is buffered, else the value is
appended to `dataQueue`. -/
def InputEndpoint.pushData (ep : InputEndpoint) (v : Int) :
    Except String (InputEndpoint × PushEffect) :=
  if ep.dataFlowMode ≠ DataFlowMode.push then
    Except.error "endpoint is not in PUSH mode"
  else
    match ep.dataPromises with
    | r :: rest => Except.ok (⟨ep.dataFlowMode, ep.dataQueue, rest⟩,
        PushEffect.resolved r v)
    | [] => Except.ok (⟨ep.dataFlowMode, ep.dataQueue ++ [v], []⟩,
        PushEffect.buffered)

/-- Embedding of `OutputEndpoint.pullData` (Endpoint.ts): valid only in PULL mode;
shifts the front of the local buffer (`undefined` on empty ↦ `none`). -/
def OutputEndpoint.pullData (out : OutputEndpoint) :
    Except String (Option Int × OutputEndpoint) :=
  if out.dataFlowMode ≠ DataFlowMode.pull then
    Except.error "endpoint is not in PULL mode"
  else
    match out.dataQueue with
    | [] => Except.ok (none, out)
    | x :: rest => Except.ok (some x, ⟨out.dataFlowMode, rest⟩)

/-- The PULL branch of `InputEndpoint.pullData`: iterate the edges in
insertion order, awaiting `edge.source.pullData()` on each until a
defined value is found. -/
def pullFromSources :
    List OutputEndpoint → Except String (Option Int × List OutputEndpoint)
  | [] => Except.ok (none, [])
  | s :: rest =>
    match s.pullData with
    | Except.error e => Except.error e
    | Except.ok (some x, s2) => Except.ok (some x, s2 :: rest)
    | Except.ok (none, s2) =>
      match pullFromSources rest with
      | Except.error e => Except.error e
      | Except.ok (d, rest2) => Except.ok (d, s2 :: rest2)

/-- Embedding of `InputEndpoint.pullData` (Endpoint.ts): in PUSH mode shifts the own
FIFO buffer; in PULL mode chases the upstream sources in edge order. -/
def InputEndpoint.pullData (ep : InputEndpoint)
    (sources : List OutputEndpoint) :
    Except String (Option Int × InputEndpoint × List OutputEndpoint) :=
  match ep.dataFlowMode with
  | DataFlowMode.push =>
    match ep.dataQueue with
    | [] => Except.ok (none, ep, sources)
    | x :: rest =>
      Except.ok (some x, ⟨ep.dataFlowMode, rest, ep.dataPromises⟩, sources)
  | DataFlowMode.pull =>
    match pullFromSources sources with
    | Except.error e => Except.error e
    | Except.ok (d, sources2) => Except.ok (d, ep, sources2)

/-- Embedding of `OutputEndpoint.pushData` (Endpoint.ts), with the targets of the
endpoint's edges (`edge.target`, insertion order) passed explicitly: PUSH
forwards the value to every target's `pushData` (awaiting the whole
fan-out); PULL appends the value to the local buffer. -/
def OutputEndpoint.pushData (out : OutputEndpoint)
    (targets : List InputEndpoint) (v : Int) :
    Except String (OutputEndpoint × List InputEndpoint) :=
  match out.dataFlowMode with
  | DataFlowMode.push =>
    match targets.mapM fun t => (t.pushData v).map Prod.fst with
    | Except.error e => Except.error e
    | Except.ok ts => Except.ok (out, ts)
  | DataFlowMode.pull =>
    Except.ok (⟨out.dataFlowMode, out.dataQueue ++ [v]⟩, targets)

/-! ### Single-edge FIFO delivery (claim C9) -/
/-- The producer side of a single PUSH edge: emit the given values, left
to right, through `OutputEndpoint.pushData` with the edge's one target. -/
def emitAll (out : OutputEndpoint) (tgt : InputEndpoint) :
    List Int → Except String InputEndpoint
  | [] => Except.ok tgt
  | v :: vs =>
    match out.pushData [tgt] v with
    | Except.error e => Except.error e
    | Except.ok (_, [t2]) => emitAll out t2 vs
    | Except.ok (_, _) => Except.error "single-edge fan-out size mismatch"

/-- The consumer side: `n` successive `pullData` calls on the target
endpoint (its own upstream sources are irrelevant in PUSH mode and are
passed empty). -/
def pullSeq (ep : InputEndpoint) : Nat → Except String (List (Option Int) × InputEndpoint)
  | 0 => Except.ok ([], ep)
  | n + 1 =>
    match ep.pullData [] with
    | Except.error e => Except.error e
    | Except.ok (d, ep2, _) =>
      match pullSeq ep2 n with
      | Except.error e => Except.error e
      | Except.ok (ds, ep3) => Except.ok (d :: ds, ep3)

/-! ## `Graph.connect` and the edge registry (claim C10)

Embedding of `Graph.connect` (GraphImpl.ts) together with
`InputEndpoint.addEdge` / `OutputEndpoint.addEdge` (Endpoint.ts) and the
graph's edge registry (a `Map` keyed by the canonical edge id, where
`set` overwrites). Edge objects are identified by an allocation tag
(`new Edge(...)` creates a fresh object), which models the `includes`
identity test in `addEdge`. Endpoints are keyed by `(nodeId, portId)`;
`getOutputEndpoint` / `getInputEndpoint` become association-list
lookups. -/
/-- First-match association lookup (the model of `Map.get`). -/
def findAssoc {α β : Type} [DecidableEq α] (m : List (α × β)) (k : α) :
    Option β :=
  match m with
  | [] => none
  | p :: rest => if p.1 = k then some p.2 else findAssoc rest k

/-- Replace the value stored under an existing key (the overwrite case of
`Map.set`). -/
def updateAssoc {α β : Type} [DecidableEq α] (m : List (α × β)) (k : α)
    (v : β) : List (α × β) :=
  m.map fun p => if p.1 = k then (k, v) else p

/-- Semantics of `Map.set`: overwrite when the key is present, append otherwise. -/
def setAssoc {α β : Type} [DecidableEq α] (m : List (α × β)) (k : α)
    (v : β) : List (α × β) :=
  if (findAssoc m k).isSome then updateAssoc m k v else m ++ [(k, v)]

/-- An `Edge` object: allocation tag (object identity), canonical id and
endpoint coordinates. -/
structure EdgeObj where
  tag : Nat
  id : String
  sourceNodeId : String
  sourceEndpointId : String
  targetNodeId : String
  targetEndpointId : String
deriving DecidableEq, Repr

/-- The part of `Graph` touched by `connect`: the per-endpoint edge lists
(lists of edge object tags, insertion order), the edge registry keyed by
canonical edge id, and the allocation counter for edge objects. -/
structure ConnectGraph where
  outputPorts : List ((String × String) × List Nat)
  inputPorts : List ((String × String) × List Nat)
  edges : List (String × EdgeObj)
  nextTag : Nat
deriving DecidableEq, Repr

/-- Embedding of `Endpoint.addEdge` (Endpoint.ts): `if (!this.edges.includes(edge))
this.edges.push(edge)` — identity-based deduplication. -/
def addEdgeRef (l : List Nat) (t : Nat) : List Nat :=
  if t ∈ l then l else l ++ [t]

/-- Embedding of `Graph.connect` (GraphImpl.ts): look up both endpoints (failing when
either node or endpoint is missing), build the canonical edge id, create
a fresh edge object, register it with both endpoints and store it in the
edge registry. The `canConnect` check always passes here because the
source is drawn from output ports and the target from input ports. -/
def connect (g : ConnectGraph)
    (sourceNodeId sourceEndpointId targetNodeId targetEndpointId : String) :
    Except String (ConnectGraph × EdgeObj) :=
  match findAssoc g.outputPorts (sourceNodeId, sourceEndpointId),
        findAssoc g.inputPorts (targetNodeId, targetEndpointId) with
  | some sourceRefs, some targetRefs =>
    let edgeId := sourceNodeId ++ "." ++ sourceEndpointId ++ "->" ++
      targetNodeId ++ "." ++ targetEndpointId
    let e : EdgeObj := ⟨g.nextTag, edgeId, sourceNodeId, sourceEndpointId,
      targetNodeId, targetEndpointId⟩
    Except.ok
      (⟨updateAssoc g.outputPorts (sourceNodeId, sourceEndpointId)
          (addEdgeRef sourceRefs e.tag),
        updateAssoc g.inputPorts (targetNodeId, targetEndpointId)
          (addEdgeRef targetRefs e.tag),
        setAssoc g.edges edgeId e,
        g.nextTag + 1⟩, e)
  | _, _ => Except.error "Source or target node or endpoint not found"

/-- Statistic `getStats().totalEdges`: the size of the edge registry. -/
def totalEdges (g : ConnectGraph) : Nat :=
  g.edges.length

/-- Embedding of `Node.getInDegree()` for the node with the given id: the edge counts
of its input endpoints, summed. -/
def getInDegree (g : ConnectGraph) (nodeId : String) : Nat :=
  ((g.inputPorts.filter fun p => p.1.1 = nodeId).map fun p => p.2.length).sum

/-! ## Downstream re-scheduling on completion (claim C1)

Embedding of `Graph.checkNodeReady` and the success tail of
`Graph.executeNode` (GraphImpl.ts). The graph state keeps, per node id,
the readiness view (`NodeView`) of the node together with the targets of
its outgoing edges (every output endpoint crossed with its incident
edges, in order), plus the ready queue, the completed set and the
`enableDynamicScheduling` flag as stored by the constructor. -/
/-- The part of `Graph` read and written by `checkNodeReady` and the
post-completion step of `executeNode`. -/
structure SchedGraph where
  nodes : List (String × NodeView)
  outTargets : List (String × List String)
  readyQueue : List String
  completedNodes : List String
  enableDynamicScheduling : Bool
deriving DecidableEq, Repr

/-- Overwrite the state of one node. -/
def SchedGraph.setState (g : SchedGraph) (i : String) (s : NodeState) :
    SchedGraph :=
  ⟨g.nodes.map fun p =>
      if p.1 = i then (p.1, ⟨s, p.2.inputEndpoints⟩) else p,
    g.outTargets, g.readyQueue, g.completedNodes,
    g.enableDynamicScheduling⟩

/-- Embedding of `Graph.checkNodeReady` (GraphImpl.ts): when the node is PENDING and
`isReady()` holds, set READY and enqueue into the ready queue (the heap
insertion plus the handle-map entry). -/
def SchedGraph.checkNodeReady (g : SchedGraph) (i : String) : SchedGraph :=
  match findAssoc g.nodes i with
  | none => g
  | some n =>
    if n.state = NodeState.pending ∧ n.isReady = true then
      let g2 := g.setState i NodeState.ready
      ⟨g2.nodes, g2.outTargets, g2.readyQueue ++ [i], g2.completedNodes,
        g2.enableDynamicScheduling⟩
    else g

/-- The success tail of `Graph.executeNode` (GraphImpl.ts): after
`node.execute(context)` returns, add the node to `completedNodes` and
re-check the readiness of the target node of every outgoing edge. The
stored `enableDynamicScheduling` flag is not consulted anywhere on this
path, mirroring the source, where the flag is written by the constructor
and never read. -/
def SchedGraph.executeNodeFinish (g : SchedGraph) (i : String) :
    SchedGraph :=
  match findAssoc g.outTargets i with
  | none => ⟨g.nodes, g.outTargets, g.readyQueue, g.completedNodes ++ [i],
      g.enableDynamicScheduling⟩
  | some tgts =>
    tgts.foldl SchedGraph.checkNodeReady
      ⟨g.nodes, g.outTargets, g.readyQueue, g.completedNodes ++ [i],
        g.enableDynamicScheduling⟩

/-- Copy a graph with the `enableDynamicScheduling` flag replaced. -/
def SchedGraph.withFlag (g : SchedGraph) (b : Bool) : SchedGraph :=
  ⟨g.nodes, g.outTargets, g.readyQueue, g.completedNodes, b⟩

/-! ## Failure semantics of the dispatch loop (claim C4)

Embedding of the control flow of `Graph.execute` (GraphImpl.ts). A node
invocation is abstracted to a task with an id and whether its `run`
throws; the nondeterministic settlement order of the in-flight promises
is an explicit schedule (the order in which `Promise.race` observes
settlements). The crucial control-flow facts mirrored from the source:
a rejection observed by `await Promise.race(executionPromises)`
propagates out of `execute` at once, so the final
`await Promise.all(executionPromises)` line is reached only on the
all-resolved path — in-flight tasks pending at the moment of the
rejection are never awaited. -/
/-- A dispatched node invocation: id and whether its `run` throws. -/
structure TaskSpec where
  id : String
  throws : Bool
deriving DecidableEq, Repr

/-- How `execute()` settles: resolves, or rejects with the error of the
named failed node while the listed in-flight invocations are still
unsettled (not awaited before `execute` settles). -/
inductive ExecOutcome where
  | resolved
  | rejected (failedId : String) (unawaited : List String)
deriving DecidableEq, Repr

/-- The inner dispatch loop: while the queue is non-empty and fewer than
`maxConcurrency` invocations are running, poll a node and spawn its
invocation. -/
def dispatch : Nat → List TaskSpec → List TaskSpec →
    List TaskSpec × List TaskSpec
  | maxC, t :: rest, running =>
    if running.length < maxC then dispatch maxC rest (running ++ [t])
    else (t :: rest, running)
  | _, [], running => ([], running)

/-- The settlement chosen by `Promise.race`: the first entry of the
schedule that is currently in flight (consuming that entry). -/
def pickSettling : List String → List TaskSpec →
    Option (TaskSpec × List String)
  | [], _ => none
  | s :: rest, running =>
    match running.find? (fun t => t.id = s) with
    | some t => some (t, rest)
    | none => pickSettling rest running

/-- The `while` loop of `Graph.execute` over an explicit settlement
schedule (fuel only discharges termination; with fuel at least the total
task count the loop always exits through one of the source's paths). -/
def execLoop : Nat → Nat → List String → List TaskSpec → List TaskSpec →
    ExecOutcome
  | 0, _, _, _, _ => ExecOutcome.resolved
  | fuel + 1, maxC, sched, queue, running =>
    match dispatch maxC queue running with
    | (queue2, running2) =>
      if running2.isEmpty then
        ExecOutcome.resolved
      else
        match pickSettling sched running2 with
        | none => ExecOutcome.resolved
        | some (t, sched2) =>
          if t.throws then
            ExecOutcome.rejected t.id
              ((running2.filter fun u => u.id ≠ t.id).map TaskSpec.id)
          else
            execLoop fuel maxC sched2 queue2
              (running2.filter fun u => u.id ≠ t.id)

end SpecModel

namespace PairHeap

variable {V : Type}

/-!
## Addressable pairing heap (claims C6, C7)

Embedding of `PairingHeap` / `PairingNode` (PairingHeap.ts, the
addressable variant with `size` and `delete`). A heap node holds a value
and its children; the `first_child` / `next_sibling` / `prev_link`
pointer structure of the source is exactly a tree whose child lists are
ordered, so a node becomes a `Tree` and a sibling list a `Forest`.
`meld` pushes the losing tree to the front of the winner's child list
(`b.next_sibling = a.first_child; a.first_child = b`), and `#cut_node`
splices a node out of its parent's child list preserving sibling order —
list removal in the model. Handles are object identities of
`PairingNode`s; the model allocates a fresh id per `insert` (the heap
carries the allocation counter) and addresses nodes by id.
-/
mutual
inductive Tree (V : Type) where
  | mk : Nat → V → Forest V → Tree V

inductive Forest (V : Type) where
  | nil : Forest V
  | cons : Tree V → Forest V → Forest V
end

/-- The handle identity of a node. -/
def Tree.idOf : Tree V → Nat
  | .mk i _ _ => i

/-- Accessor for `node.value`. -/
def Tree.val : Tree V → V
  | .mk _ v _ => v

/-- Accessor for `node.first_child` and the sibling chain hanging off it. -/
def Tree.children : Tree V → Forest V
  | .mk _ _ cs => cs

/-- Embedding of `#meld` (PairingHeap.ts): the comparator-smaller root wins, the other
tree is pushed onto the front of the winner's child list. -/
def meld (cmp : V → V → Int) (a b : Tree V) : Tree V :=
  match a, b with
  | .mk ia va ca, .mk ib vb cb =>
    if cmp va vb ≤ 0 then .mk ia va (.cons (.mk ib vb cb) ca)
    else .mk ib vb (.cons (.mk ia va ca) cb)

/-- Embedding of `#merge_pairs` (PairingHeap.ts): pass one melds adjacent sibling
pairs left to right; pass two melds the resulting roots right to left.
Written as the equivalent structural recursion (`none` for the empty
sibling list). -/
def mergePairs (cmp : V → V → Int) : Forest V → Option (Tree V)
  | .nil => none
  | .cons t .nil => some t
  | .cons a (.cons b rest) =>
    match mergePairs cmp rest with
    | none => some (meld cmp a b)
    | some r => some (meld cmp (meld cmp a b) r)

/-- The `PairingHeap` state: `#root`, `#size`, plus the allocation counter
for node identities. -/
structure Heap (V : Type) where
  root : Option (Tree V)
  size : Nat
  nextId : Nat

/-- Constructor `new PairingHeap(comparator)`. -/
def Heap.empty : Heap V := ⟨none, 0, 0⟩

/-- Embedding of `insert` (PairingHeap.ts): a fresh node melded under the root; the
returned handle is the fresh node's identity. -/
def insert (cmp : V → V → Int) (h : Heap V) (v : V) : Heap V × Nat :=
  (⟨some (match h.root with
      | some r => meld cmp r (.mk h.nextId v .nil)
      | none => .mk h.nextId v .nil),
    h.size + 1, h.nextId + 1⟩, h.nextId)

/-- Embedding of `poll` (PairingHeap.ts): `null` on the empty heap, else return the
root's value and promote the pairwise merge of its children. -/
def poll (cmp : V → V → Int) (h : Heap V) : Option V × Heap V :=
  match h.root with
  | none => (none, h)
  | some (.mk _ v cs) =>
    (some v, ⟨mergePairs cmp cs, h.size - 1, h.nextId⟩)

mutual
/-- Find the descendant with the given handle inside a tree (not testing
the tree's own root) and cut it out (`#cut_node`): the node leaves its
parent's child list, sibling order preserved. Returns the tree without
the subtree, and the cut subtree. -/
def removeSubT : Tree V → Nat → Option (Tree V × Tree V)
  | .mk j v cs, i =>
    match removeSubF cs i with
    | some (cs2, sub) => some (.mk j v cs2, sub)
    | none => none

/-- Helper `removeSubT` over a sibling list: test each root, else descend, else
continue right. -/
def removeSubF : Forest V → Nat → Option (Forest V × Tree V)
  | .nil, _ => none
  | .cons t f, i =>
    if t.idOf = i then some (f, t)
    else
      match removeSubT t i with
      | some (t2, sub) => some (.cons t2 f, sub)
      | none =>
        match removeSubF f i with
        | some (f2, sub) => some (.cons t f2, sub)
        | none => none
end

/-- Embedding of `delete` (PairingHeap.ts): no-op on an empty heap; `poll()` when the
handle is the root; otherwise cut the node, pairwise-merge its children
back under the root and decrement `#size`. A handle not found in the
tree corresponds to a detached (already deleted) node object, for which
the source still decrements `#size` and leaves the tree unchanged. -/
def delete (cmp : V → V → Int) (h : Heap V) (i : Nat) : Heap V :=
  match h.root with
  | none => h
  | some root =>
    if root.idOf = i then (poll cmp h).2
    else
      match removeSubT root i with
      | some (root2, sub) =>
        match mergePairs cmp sub.children with
        | some cr => ⟨some (meld cmp root2 cr), h.size - 1, h.nextId⟩
        | none => ⟨some root2, h.size - 1, h.nextId⟩
      | none => ⟨some root, h.size - 1, h.nextId⟩

/-- Embedding of `decrease` (PairingHeap.ts): throws when the comparator orders the
new value strictly above the handle's current value (checked before any
mutation, so the heap is untouched on failure); otherwise overwrites the
value and, unless the handle is the root, cuts the node — keeping its
children — and melds it with the root. A handle absent from the tree is
a detached node object, outside the scope of the claims; the model
returns the heap unchanged there. -/
def decrease (cmp : V → V → Int) (h : Heap V) (i : Nat) (v : V) :
    Except Unit (Heap V) :=
  match h.root with
  | none => Except.ok h
  | some root =>
    if root.idOf = i then
      if cmp v root.val > 0 then Except.error ()
      else Except.ok ⟨some (.mk root.idOf v root.children), h.size, h.nextId⟩
    else
      match removeSubT root i with
      | some (root2, sub) =>
        if cmp v sub.val > 0 then Except.error ()
        else Except.ok ⟨some (meld cmp root2 (.mk sub.idOf v sub.children)),
          h.size, h.nextId⟩
      | none => Except.ok h

/-! ### Observed contents: handle/value pairs -/
mutual
/-- The multiset of (handle, value) pairs stored in a tree. -/
def pairsT : Tree V → Multiset (Nat × V)
  | .mk i v cs => (i, v) ::ₘ pairsF cs

/-- The multiset of (handle, value) pairs stored in a sibling list. -/
def pairsF : Forest V → Multiset (Nat × V)
  | .nil => 0
  | .cons t f => pairsT t + pairsF f
end

/-- The (handle, value) pairs of the whole heap. -/
def heapPairs (h : Heap V) : Multiset (Nat × V) :=
  match h.root with
  | none => 0
  | some t => pairsT t

/-- The multiset of values in the heap. -/
def heapVals (h : Heap V) : Multiset V :=
  (heapPairs h).map Prod.snd

/-- The multiset of live handles of the heap. -/
def heapIds (h : Heap V) : Multiset Nat :=
  (heapPairs h).map Prod.fst

/-- The value stored under a live handle (`none` when the handle is not
in the heap). -/
def heapValAt (h : Heap V) (i : Nat) : Option V :=
  match h.root with
  | none => none
  | some root =>
    if root.idOf = i then some root.val
    else
      match removeSubT root i with
      | some (_, sub) => some sub.val
      | none => none

/-! ### Heap order -/
mutual
/-- Heap order of a tree: each node's value is comparator-at-most each
child's value, recursively. -/
def HOrdT (cmp : V → V → Int) : Tree V → Prop
  | .mk _ v cs => HOrdF cmp v cs

/-- Heap order of a sibling list under an upper node's value. -/
def HOrdF (cmp : V → V → Int) : V → Forest V → Prop
  | _, .nil => True
  | v, .cons t f => cmp v t.val ≤ 0 ∧ HOrdT cmp t ∧ HOrdF cmp v f
end

/-- Heap order of every tree of a sibling list, with no bound relating
them (the shape `#merge_pairs` receives). -/
def HAllF (cmp : V → V → Int) : Forest V → Prop
  | .nil => True
  | .cons t f => HOrdT cmp t ∧ HAllF cmp f

/-- The well-formedness invariant of a live heap: heap order, pairwise
distinct handles, handles below the allocation counter, and `#size`
agreeing with the number of stored nodes. -/
structure Inv (cmp : V → V → Int) (h : Heap V) : Prop where
  hord : ∀ t, h.root = some t → HOrdT cmp t
  nodup : (heapIds h).Nodup
  bound : ∀ i ∈ heapIds h, i < h.nextId
  sizeEq : h.size = Multiset.card (heapPairs h)

/-! ### Operation sequences -/
/-- One client operation on the addressable heap; `delete i` addresses
the handle returned by the `i`-th `insert` of the run (handles are
allocated consecutively from 0). -/
inductive Op (V : Type) where
  | insert (v : V)
  | poll
  | delete (handle : Nat)

/-- Apply one operation. -/
def runOp (cmp : V → V → Int) (h : Heap V) : Op V → Heap V
  | .insert v => (insert cmp h v).1
  | .poll => (poll cmp h).2
  | .delete i => delete cmp h i

/-- Apply a sequence of operations. -/
def runOps (cmp : V → V → Int) (h : Heap V) : List (Op V) → Heap V
  | [] => h
  | op :: rest => runOps cmp (runOp cmp h op) rest

/-- Every `delete` of the sequence addresses a handle that is live when
it executes (the claims only exercise live handles). -/
def validOps (cmp : V → V → Int) (h : Heap V) : List (Op V) → Bool
  | [] => true
  | .delete i :: rest =>
    decide (i ∈ heapIds h) && validOps cmp (delete cmp h i) rest
  | op :: rest => validOps cmp (runOp cmp h op) rest

/-- Extract up to `n` values by repeated `poll` (the min-extract order of
the heap). -/
def drain (cmp : V → V → Int) : Nat → Heap V → List V
  | 0, _ => []
  | n + 1, h =>
    match poll cmp h with
    | (some v, h2) => v :: drain cmp n h2
    | (none, _) => []

/-! ### Lemmas: meld and mergePairs -/
/-- The pairs of a tree produced by the option result of `mergePairs`. -/
def pairsO : Option (Tree V) → Multiset (Nat × V)
  | none => 0
  | some t => pairsT t

end PairHeap

namespace SpecModel

/-- The per-input-endpoint test inside `Node.isReady` agrees with the
corresponding disjunction of the specification. -/
lemma isReady_body_iff (ep : InputView) :
    (if ep.edges.length = 0 then true
     else if ep.dataFlowMode = DataFlowMode.push then ep.hasData
     else ep.edges.any fun e => e.source.hasData) = true ↔
    (ep.edges = [] ∨
      (ep.dataFlowMode = DataFlowMode.push ∧ ep.dataQueue ≠ []) ∨
      (ep.dataFlowMode = DataFlowMode.pull ∧
        ∃ e ∈ ep.edges, e.source.dataQueue ≠ [])) := by
  cases hm : ep.dataFlowMode <;>
    cases hq : ep.edges <;>
      simp [InputView.hasData, OutputView.hasData, List.any_eq_true,
        List.length_pos, ← hq, ← List.length_pos]

/-- Claim C5: `isReady()` returns true if and only if the node's state is
Pending and either it has no input endpoints, or every input endpoint
satisfies: it has no incident edges, or (mode Push) its buffer is
non-empty, or (mode Pull) at least one upstream Output endpoint connected
by an incident edge has a non-empty buffer. -/
theorem c5_isReady_iff_specReady (n : NodeView) :
    n.isReady = true ↔ specReady n := by
  unfold NodeView.isReady specReady
  by_cases hs : n.state = NodeState.pending
  · have hall : (if n.inputEndpoints.length = 0 then true
        else n.inputEndpoints.all fun ep =>
          if ep.edges.length = 0 then true
          else if ep.dataFlowMode = DataFlowMode.push then ep.hasData
          else ep.edges.any fun e => e.source.hasData) = true ↔
        ∀ ep ∈ n.inputEndpoints,
          (if ep.edges.length = 0 then true
           else if ep.dataFlowMode = DataFlowMode.push then ep.hasData
           else ep.edges.any fun e => e.source.hasData) = true := by
      cases n.inputEndpoints <;> simp [List.all_eq_true]
    rw [if_neg (show ¬n.state ≠ NodeState.pending from by simp [hs]), hall]
    constructor
    · intro h
      refine ⟨hs, Or.inr fun ep hep => (isReady_body_iff ep).mp (h ep hep)⟩
    · rintro ⟨-, hnil | h⟩ ep hep
      · rw [hnil] at hep
        exact absurd hep (List.not_mem_nil ep)
      · exact (isReady_body_iff ep).mpr (h ep hep)
  · simp [hs]

/-- Counterexample to claim C2 at concrete inputs: `cancel()` on a node
whose state is Completed changes the state (to Cancelled), and a run
finishing normally changes a Cancelled state (to Completed); so
Completed, Failed and Cancelled are not terminal under these operations. -/
theorem c2_counterexample :
    ((NodeCore.mk NodeState.completed none).cancel ⟨[]⟩).1.state ≠
      NodeState.completed ∧
    (NodeCore.mk NodeState.cancelled (some 0)).executeFinish true =
      NodeCore.mk NodeState.completed none ∧
    ((NodeCore.mk NodeState.failed none).cancel ⟨[]⟩).1.state =
      NodeState.cancelled := by
  decide

/-- Claim C2 amended: the lifecycle operations assign states
unconditionally — `cancel()` sets any state (also Completed or Failed) to
Cancelled, and the completion of an in-flight run sets any state (also
Cancelled) to Completed on normal return and Failed on a throw; hence a
terminal state persists only as long as neither `cancel()` nor a run
completion is applied to the node again (Cancelled is a fixed point of
`cancel()`, Completed of a normal completion, Failed of a throwing one). -/
theorem c2_transitions_unconditional (n : NodeCore) (w : World) (ok : Bool) :
    ((n.cancel w).1.state = NodeState.cancelled) ∧
    ((n.executeFinish ok).state =
      if ok then NodeState.completed else NodeState.failed) ∧
    ((n.executeStart w).1.state = NodeState.running) := by
  refine ⟨rfl, rfl, rfl⟩

/-- Claim C3 evaluated on the scheduler's own wiring: `executeNode` first
builds the context (allocating controller 0, whose signal the run
observes), `Node.execute` then allocates controller 1 into
`node.abortController`; `cancel()` during Running aborts controller 1 and
sets the state to Cancelled, but the context signal (controller 0) is
never aborted — the run cannot observe the cancellation through
`context.signal`, contrary to the claim. -/
theorem c3_cancel_signal_not_observed :
    let w0 : World := ⟨[]⟩
    let ctx := createNodeContext w0
    let n0 : NodeCore := ⟨NodeState.ready, none⟩
    let st := n0.executeStart ctx.2
    let cn := st.1.cancel st.2
    cn.1.state = NodeState.cancelled ∧
    (cn.2.aborted (st.1.abortController.getD 99) = true) ∧
    cn.2.aborted ctx.1 = false := by
  decide

/-- Claim C8: `pushData(v)` on an input endpoint fails if and only if the
endpoint's mode is not Push; on success, if an awaiter is pending, the
oldest awaiter is resolved with `v` and `v` is not buffered; otherwise
`v` is appended to the end of the FIFO buffer. -/
theorem c8_input_pushData_spec (ep : InputEndpoint) (v : Int) :
    ((ep.pushData v).isOk = false ↔ ep.dataFlowMode ≠ DataFlowMode.push) ∧
    (∀ a rest, ep.dataPromises = a :: rest →
      ep.dataFlowMode = DataFlowMode.push →
      ep.pushData v =
        Except.ok (⟨DataFlowMode.push, ep.dataQueue, rest⟩,
          PushEffect.resolved a v)) ∧
    (ep.dataPromises = [] → ep.dataFlowMode = DataFlowMode.push →
      ep.pushData v =
        Except.ok (⟨DataFlowMode.push, ep.dataQueue ++ [v], []⟩,
          PushEffect.buffered)) := by
  refine ⟨?_, ?_, ?_⟩
  · unfold InputEndpoint.pushData
    by_cases hm : ep.dataFlowMode = DataFlowMode.push
    · simp only [hm, ne_eq, not_true_eq_false, if_false]
      cases ep.dataPromises <;> simp [Except.isOk, Except.toBool]
    · simp [hm, Except.isOk, Except.toBool]
  · intro a rest hp hm
    unfold InputEndpoint.pushData
    rw [if_neg (by simp [hm]), hp, hm]
  · intro hp hm
    unfold InputEndpoint.pushData
    rw [if_neg (by simp [hm]), hp, hm]

/-- Witness for C8 at a concrete endpoint: one pending awaiter `6`, one
buffered item; pushing `5` resolves awaiter `6` with `5` and leaves the
buffer untouched. -/
theorem c8_witness :
    (InputEndpoint.mk DataFlowMode.push [1] [6, 7]).dataPromises = 6 :: [7] ∧
    (InputEndpoint.mk DataFlowMode.push [1] [6, 7]).dataFlowMode =
      DataFlowMode.push ∧
    (InputEndpoint.mk DataFlowMode.push [1] [6, 7]).pushData 5 =
      Except.ok (InputEndpoint.mk DataFlowMode.push [1] [7],
        PushEffect.resolved 6 5) :=
  ⟨rfl, rfl,
    (c8_input_pushData_spec (InputEndpoint.mk DataFlowMode.push [1] [6, 7])
      5).2.1 6 [7] rfl rfl⟩

/-- Emitting over a single PUSH edge with no pending awaiter appends the
values, in order, to the target's FIFO buffer. -/
lemma emitAll_push (out : OutputEndpoint) (hout : out.dataFlowMode = DataFlowMode.push) :
    ∀ (vs : List Int) (q : List Int),
      emitAll out ⟨DataFlowMode.push, q, []⟩ vs =
        Except.ok ⟨DataFlowMode.push, q ++ vs, []⟩
  | [], q => by simp [emitAll]
  | v :: vs, q => by
    have step : out.pushData [⟨DataFlowMode.push, q, []⟩] v =
        Except.ok (out, [⟨DataFlowMode.push, q ++ [v], []⟩]) := by
      unfold OutputEndpoint.pushData
      rw [hout]
      rfl
    simp [emitAll, step, emitAll_push out hout vs (q ++ [v])]

/-- Pulling repeatedly from a PUSH-mode input endpoint streams its buffer
front-first. -/
lemma pullSeq_push :
    ∀ (vs : List Int),
      pullSeq ⟨DataFlowMode.push, vs, []⟩ vs.length =
        Except.ok (vs.map some, ⟨DataFlowMode.push, [], []⟩)
  | [] => by simp [pullSeq]
  | v :: vs => by
    have step : (InputEndpoint.mk DataFlowMode.push (v :: vs) []).pullData [] =
        Except.ok (some v, ⟨DataFlowMode.push, vs, []⟩, []) := rfl
    simp [pullSeq, step, pullSeq_push vs]

/-- Claim C9: over a single edge whose source and target endpoints are
both in Push mode, emitting `v1, ..., vn` in order and then issuing `n`
`pullData` calls on the target returns exactly `v1, ..., vn` in order
(per-edge FIFO delivery). -/
theorem c9_push_fifo (out : OutputEndpoint) (vs : List Int)
    (hout : out.dataFlowMode = DataFlowMode.push) :
    emitAll out ⟨DataFlowMode.push, [], []⟩ vs =
      Except.ok ⟨DataFlowMode.push, vs, []⟩ ∧
    pullSeq ⟨DataFlowMode.push, vs, []⟩ vs.length =
      Except.ok (vs.map some, ⟨DataFlowMode.push, [], []⟩) := by
  refine ⟨?_, pullSeq_push vs⟩
  have := emitAll_push out hout vs []
  simpa using this

/-- Witness for C9: pushing `[1, 2, 3]` over a fresh PUSH edge buffers
`[1, 2, 3]` at the target, and three pulls return `1, 2, 3` in order. -/
theorem c9_witness :
    (OutputEndpoint.mk DataFlowMode.push []).dataFlowMode =
      DataFlowMode.push ∧
    emitAll (OutputEndpoint.mk DataFlowMode.push [])
        ⟨DataFlowMode.push, [], []⟩ [1, 2, 3] =
      Except.ok ⟨DataFlowMode.push, [1, 2, 3], []⟩ ∧
    pullSeq ⟨DataFlowMode.push, [1, 2, 3], []⟩ 3 =
      Except.ok ([some 1, some 2, some 3], ⟨DataFlowMode.push, [], []⟩) :=
  ⟨rfl, (c9_push_fifo (OutputEndpoint.mk DataFlowMode.push []) [1, 2, 3] rfl).1,
    (c9_push_fifo (OutputEndpoint.mk DataFlowMode.push []) [1, 2, 3] rfl).2⟩

lemma findAssoc_updateAssoc_self {α β : Type} [DecidableEq α]
    (m : List (α × β)) (k : α) (v : β) :
    findAssoc (updateAssoc m k v) k =
      if (findAssoc m k).isSome then some v else none := by
  induction m with
  | nil => rfl
  | cons p rest ih =>
    by_cases h : p.1 = k
    · simp [updateAssoc, findAssoc, h]
    · simp only [updateAssoc, List.map_cons, findAssoc, if_neg h]
      exact ih

lemma length_updateAssoc {α β : Type} [DecidableEq α]
    (m : List (α × β)) (k : α) (v : β) :
    (updateAssoc m k v).length = m.length := by
  simp [updateAssoc]

lemma length_setAssoc_new {α β : Type} [DecidableEq α]
    (m : List (α × β)) (k : α) (v : β) (h : findAssoc m k = none) :
    (setAssoc m k v).length = m.length + 1 := by
  simp [setAssoc, h]

lemma length_setAssoc_overwrite {α β : Type} [DecidableEq α]
    (m : List (α × β)) (k : α) (v w : β) (h : findAssoc m k = some w) :
    (setAssoc m k v).length = m.length := by
  simp [setAssoc, h, length_updateAssoc]

lemma findAssoc_append_new {α β : Type} [DecidableEq α]
    (m : List (α × β)) (k : α) (v : β) (h : findAssoc m k = none) :
    findAssoc (m ++ [(k, v)]) k = some v := by
  induction m with
  | nil => simp [findAssoc]
  | cons p rest ih =>
    by_cases hp : p.1 = k
    · rw [findAssoc, if_pos hp] at h
      exact absurd h (by simp)
    · rw [findAssoc, if_neg hp] at h
      rw [List.cons_append, findAssoc, if_neg hp]
      exact ih h

lemma findAssoc_setAssoc_new {α β : Type} [DecidableEq α]
    (m : List (α × β)) (k : α) (v : β) (h : findAssoc m k = none) :
    findAssoc (setAssoc m k v) k = some v := by
  rw [setAssoc, h]
  simp only [Option.isSome_none, Bool.false_eq_true, if_false]
  exact findAssoc_append_new m k v h

lemma findAssoc_setAssoc_overwrite {α β : Type} [DecidableEq α]
    (m : List (α × β)) (k : α) (v w : β) (h : findAssoc m k = some w) :
    findAssoc (setAssoc m k v) k = some v := by
  rw [setAssoc, h]
  simp only [Option.isSome_some, if_true]
  rw [findAssoc_updateAssoc_self, h]
  rfl

lemma updateAssoc_not_mem {α β : Type} [DecidableEq α]
    (m : List (α × β)) (k : α) (v : β) (h : ∀ p ∈ m, p.1 ≠ k) :
    updateAssoc m k v = m := by
  unfold updateAssoc
  rw [List.map_congr_left fun q hq => if_neg (h q hq)]
  exact List.map_id m

/-- Updating one input-port entry changes `getInDegree` of its node by
the difference of the edge-list lengths (stated addition-side to stay in
`Nat`); requires the port keys to be distinct, as they are in the real
endpoint `Map`s. -/
lemma getInDegree_update (m : List ((String × String) × List Nat))
    (hnodup : (m.map Prod.fst).Nodup) (tN tP : String)
    (old new : List Nat) (h : findAssoc m (tN, tP) = some old) :
    ((updateAssoc m (tN, tP) new).filter (fun p => p.1.1 = tN)
        |>.map fun p => p.2.length).sum + old.length =
    ((m.filter fun p => p.1.1 = tN).map fun p => p.2.length).sum +
      new.length := by
  induction m with
  | nil => simp [findAssoc] at h
  | cons p rest ih =>
    simp only [List.map_cons, List.nodup_cons] at hnodup
    by_cases hp : p.1 = (tN, tP)
    · rw [findAssoc, if_pos hp] at h
      have hold : p.2 = old := by injection h
      have hcons : updateAssoc (p :: rest) (tN, tP) new =
          ((tN, tP), new) :: rest := by
        have hrest : updateAssoc rest (tN, tP) new = rest := by
          refine updateAssoc_not_mem rest (tN, tP) new fun q hq hq1 => ?_
          exact hnodup.1 (by rw [hp, ← hq1]; exact List.mem_map_of_mem Prod.fst hq)
        calc updateAssoc (p :: rest) (tN, tP) new
            = ((tN, tP), new) :: updateAssoc rest (tN, tP) new := by
              unfold updateAssoc
              rw [List.map_cons, if_pos hp]
          _ = ((tN, tP), new) :: rest := by rw [hrest]
      rw [hcons]
      have hfst : p.1.1 = tN := by rw [hp]
      simp [List.filter_cons, hfst, ← hold]
      omega
    · rw [findAssoc, if_neg hp] at h
      have hcons : updateAssoc (p :: rest) (tN, tP) new =
          p :: updateAssoc rest (tN, tP) new := by
        unfold updateAssoc
        rw [List.map_cons, if_neg hp]
      rw [hcons]
      have ihr := ih hnodup.2 h
      by_cases hfst : p.1.1 = tN
      · simp only [List.filter_cons, hfst]
        simp only [decide_eq_true_eq, if_pos trivial, List.map_cons,
          List.sum_cons]
        simp only [List.filter_cons, hfst] at ihr ⊢
        omega
      · have hb : (decide (p.1.1 = tN)) = false := by
          simp [hfst]
        simp only [List.filter_cons, hb, Bool.false_eq_true, if_neg,
          not_false_eq_true]
        exact ihr

lemma updateAssoc_map_fst {α β : Type} [DecidableEq α]
    (m : List (α × β)) (k : α) (v : β) :
    (updateAssoc m k v).map Prod.fst = m.map Prod.fst := by
  unfold updateAssoc
  rw [List.map_map]
  refine List.map_congr_left fun p _ => ?_
  by_cases hp : p.1 = k
  · simp [hp]
  · simp [hp]

lemma addEdgeRef_fresh (l : List Nat) (t : Nat) (h : t ∉ l) :
    addEdgeRef l t = l ++ [t] := by
  simp [addEdgeRef, h]

/-- Claim C10: connecting the same four identifiers twice succeeds both
times, producing two distinct edge objects with the same canonical id;
the registry keeps only the second edge (`totalEdges` grows by 1
overall), while the target's endpoint edge lists keep both, so
`getInDegree` of the target node grows by 2. The hypotheses say that both
endpoints exist, that no edge with this canonical id is registered yet,
that all already-registered edge tags are older than the allocation
counter, and that port keys are unique (as in the real endpoint maps). -/
theorem c10_duplicate_connect (g : ConnectGraph)
    (sN sP tN tP : String) (sRefs tRefs : List Nat)
    (hs : findAssoc g.outputPorts (sN, sP) = some sRefs)
    (ht : findAssoc g.inputPorts (tN, tP) = some tRefs)
    (hnew : findAssoc g.edges
      (sN ++ "." ++ sP ++ "->" ++ tN ++ "." ++ tP) = none)
    (htb : ∀ t ∈ tRefs, t < g.nextTag)
    (hnodupIn : (g.inputPorts.map Prod.fst).Nodup) :
    ((connect g sN sP tN tP).isOk = true) ∧
    ∀ g2 e1, connect g sN sP tN tP = Except.ok (g2, e1) →
      ((connect g2 sN sP tN tP).isOk = true) ∧
      ∀ g3 e2, connect g2 sN sP tN tP = Except.ok (g3, e2) →
        e1.id = e2.id ∧ e1.tag ≠ e2.tag ∧
        totalEdges g2 = totalEdges g + 1 ∧
        totalEdges g3 = totalEdges g + 1 ∧
        getInDegree g2 tN = getInDegree g tN + 1 ∧
        getInDegree g3 tN = getInDegree g tN + 2 ∧
        findAssoc g3.edges e1.id = some e2 := by
  have hanot : g.nextTag ∉ tRefs := fun hmem => absurd (htb _ hmem) (by omega)
  have haddt : addEdgeRef tRefs g.nextTag = tRefs ++ [g.nextTag] :=
    addEdgeRef_fresh _ _ hanot
  have h1 : connect g sN sP tN tP = Except.ok
      (⟨updateAssoc g.outputPorts (sN, sP) (addEdgeRef sRefs g.nextTag),
        updateAssoc g.inputPorts (tN, tP) (addEdgeRef tRefs g.nextTag),
        setAssoc g.edges (sN ++ "." ++ sP ++ "->" ++ tN ++ "." ++ tP)
          ⟨g.nextTag, sN ++ "." ++ sP ++ "->" ++ tN ++ "." ++ tP,
            sN, sP, tN, tP⟩,
        g.nextTag + 1⟩,
       ⟨g.nextTag, sN ++ "." ++ sP ++ "->" ++ tN ++ "." ++ tP,
         sN, sP, tN, tP⟩) := by
    unfold connect
    rw [hs, ht]
  refine ⟨by rw [h1]; rfl, ?_⟩
  intro g2 e1 heq
  rw [h1] at heq
  rw [Except.ok.injEq, Prod.mk.injEq] at heq
  obtain ⟨hg2, he1⟩ := heq
  subst hg2 he1
  have hs2 : findAssoc
      (updateAssoc g.outputPorts (sN, sP) (addEdgeRef sRefs g.nextTag))
      (sN, sP) = some (addEdgeRef sRefs g.nextTag) := by
    rw [findAssoc_updateAssoc_self, hs]
    rfl
  have ht2 : findAssoc
      (updateAssoc g.inputPorts (tN, tP) (addEdgeRef tRefs g.nextTag))
      (tN, tP) = some (addEdgeRef tRefs g.nextTag) := by
    rw [findAssoc_updateAssoc_self, ht]
    rfl
  have hreg1 : findAssoc
      (setAssoc g.edges (sN ++ "." ++ sP ++ "->" ++ tN ++ "." ++ tP)
        ⟨g.nextTag, sN ++ "." ++ sP ++ "->" ++ tN ++ "." ++ tP,
          sN, sP, tN, tP⟩)
      (sN ++ "." ++ sP ++ "->" ++ tN ++ "." ++ tP) = some
        ⟨g.nextTag, sN ++ "." ++ sP ++ "->" ++ tN ++ "." ++ tP,
          sN, sP, tN, tP⟩ :=
    findAssoc_setAssoc_new _ _ _ hnew
  have h2 : connect
      ⟨updateAssoc g.outputPorts (sN, sP) (addEdgeRef sRefs g.nextTag),
        updateAssoc g.inputPorts (tN, tP) (addEdgeRef tRefs g.nextTag),
        setAssoc g.edges (sN ++ "." ++ sP ++ "->" ++ tN ++ "." ++ tP)
          ⟨g.nextTag, sN ++ "." ++ sP ++ "->" ++ tN ++ "." ++ tP,
            sN, sP, tN, tP⟩,
        g.nextTag + 1⟩ sN sP tN tP = Except.ok
      (⟨updateAssoc
          (updateAssoc g.outputPorts (sN, sP) (addEdgeRef sRefs g.nextTag))
          (sN, sP) (addEdgeRef (addEdgeRef sRefs g.nextTag) (g.nextTag + 1)),
        updateAssoc
          (updateAssoc g.inputPorts (tN, tP) (addEdgeRef tRefs g.nextTag))
          (tN, tP) (addEdgeRef (addEdgeRef tRefs g.nextTag) (g.nextTag + 1)),
        setAssoc
          (setAssoc g.edges (sN ++ "." ++ sP ++ "->" ++ tN ++ "." ++ tP)
            ⟨g.nextTag, sN ++ "." ++ sP ++ "->" ++ tN ++ "." ++ tP,
              sN, sP, tN, tP⟩)
          (sN ++ "." ++ sP ++ "->" ++ tN ++ "." ++ tP)
          ⟨g.nextTag + 1, sN ++ "." ++ sP ++ "->" ++ tN ++ "." ++ tP,
            sN, sP, tN, tP⟩,
        g.nextTag + 2⟩,
       ⟨g.nextTag + 1, sN ++ "." ++ sP ++ "->" ++ tN ++ "." ++ tP,
         sN, sP, tN, tP⟩) := by
    unfold connect
    rw [hs2, ht2]
  refine ⟨by rw [h2]; rfl, ?_⟩
  intro g3 e2 heq2
  rw [h2] at heq2
  rw [Except.ok.injEq, Prod.mk.injEq] at heq2
  obtain ⟨hg3, he2⟩ := heq2
  subst hg3 he2
  have haddt2 : addEdgeRef (addEdgeRef tRefs g.nextTag) (g.nextTag + 1) =
      (tRefs ++ [g.nextTag]) ++ [g.nextTag + 1] := by
    rw [haddt]
    refine addEdgeRef_fresh _ _ fun hmem => ?_
    rcases List.mem_append.mp hmem with hin | hin
    · exact absurd (htb _ hin) (by omega)
    · rw [List.mem_singleton] at hin
      omega
  have hdeg1 := getInDegree_update g.inputPorts hnodupIn tN tP
    tRefs (addEdgeRef tRefs g.nextTag) ht
  have hdeg2 := getInDegree_update
    (updateAssoc g.inputPorts (tN, tP) (addEdgeRef tRefs g.nextTag))
    (by rw [updateAssoc_map_fst]; exact hnodupIn) tN tP
    (addEdgeRef tRefs g.nextTag)
    (addEdgeRef (addEdgeRef tRefs g.nextTag) (g.nextTag + 1)) ht2
  rw [haddt] at hdeg1
  rw [haddt2, haddt] at hdeg2
  refine ⟨rfl, by simp, ?_, ?_, ?_, ?_, ?_⟩
  · exact length_setAssoc_new _ _ _ hnew
  · show (setAssoc _ _ _).length = _
    rw [length_setAssoc_overwrite _ _ _ _ hreg1]
    exact length_setAssoc_new _ _ _ hnew
  · show ((updateAssoc g.inputPorts (tN, tP) _ |>.filter _).map _).sum = _
    rw [haddt]
    unfold getInDegree
    simp only [List.length_append, List.length_singleton] at hdeg1
    omega
  · show ((updateAssoc (updateAssoc g.inputPorts (tN, tP) _) (tN, tP) _
      |>.filter _).map _).sum = _
    rw [haddt2, haddt]
    unfold getInDegree
    simp only [List.length_append, List.length_singleton] at hdeg1 hdeg2
    omega
  · show findAssoc (setAssoc _ _ _) _ = _
    exact findAssoc_setAssoc_overwrite _ _ _ _ hreg1

/-- Witness for C10 on a two-node graph with one output and one input
port: both connects succeed, the registry holds one edge while the
target's in-degree is 2, and the registry entry is the second object. -/
theorem c10_witness :
    ((connect ⟨[(("n1", "out"), [])], [(("n2", "in"), [])], [], 0⟩
        "n1" "out" "n2" "in").isOk = true) ∧
    (EdgeObj.mk 0 "n1.out->n2.in" "n1" "out" "n2" "in").id =
      (EdgeObj.mk 1 "n1.out->n2.in" "n1" "out" "n2" "in").id ∧
    (EdgeObj.mk 0 "n1.out->n2.in" "n1" "out" "n2" "in").tag ≠
      (EdgeObj.mk 1 "n1.out->n2.in" "n1" "out" "n2" "in").tag ∧
    totalEdges ⟨[(("n1", "out"), [0, 1])], [(("n2", "in"), [0, 1])],
      [("n1.out->n2.in", ⟨1, "n1.out->n2.in", "n1", "out", "n2", "in"⟩)], 2⟩ =
      totalEdges ⟨[(("n1", "out"), [])], [(("n2", "in"), [])], [], 0⟩ + 1 ∧
    getInDegree ⟨[(("n1", "out"), [0, 1])], [(("n2", "in"), [0, 1])],
      [("n1.out->n2.in", ⟨1, "n1.out->n2.in", "n1", "out", "n2", "in"⟩)], 2⟩
      "n2" =
      getInDegree ⟨[(("n1", "out"), [])], [(("n2", "in"), [])], [], 0⟩
        "n2" + 2 := by
  have base := c10_duplicate_connect
    ⟨[(("n1", "out"), [])], [(("n2", "in"), [])], [], 0⟩
    "n1" "out" "n2" "in" [] [] rfl rfl rfl (by simp) (by decide)
  have step1 := base.2
    ⟨[(("n1", "out"), [0])], [(("n2", "in"), [0])],
      [("n1.out->n2.in", ⟨0, "n1.out->n2.in", "n1", "out", "n2", "in"⟩)], 1⟩
    ⟨0, "n1.out->n2.in", "n1", "out", "n2", "in"⟩ (by rfl)
  have step2 := step1.2
    ⟨[(("n1", "out"), [0, 1])], [(("n2", "in"), [0, 1])],
      [("n1.out->n2.in", ⟨1, "n1.out->n2.in", "n1", "out", "n2", "in"⟩)], 2⟩
    ⟨1, "n1.out->n2.in", "n1", "out", "n2", "in"⟩ (by rfl)
  exact ⟨base.1, step2.1, step2.2.1, step2.2.2.2.1, step2.2.2.2.2.2.1⟩

lemma checkNodeReady_withFlag (g : SchedGraph) (b : Bool) (i : String) :
    (g.withFlag b).checkNodeReady i = (g.checkNodeReady i).withFlag b := by
  unfold SchedGraph.checkNodeReady SchedGraph.withFlag SchedGraph.setState
  cases findAssoc g.nodes i with
  | none => rfl
  | some n =>
    by_cases h : n.state = NodeState.pending ∧ n.isReady = true
    · simp only [if_pos h]
    · simp only [if_neg h]

lemma foldl_checkNodeReady_withFlag (tgts : List String) :
    ∀ (g : SchedGraph) (b : Bool),
      tgts.foldl SchedGraph.checkNodeReady (g.withFlag b) =
        (tgts.foldl SchedGraph.checkNodeReady g).withFlag b := by
  induction tgts with
  | nil => intro g b; rfl
  | cons t rest ih =>
    intro g b
    rw [List.foldl_cons, List.foldl_cons, checkNodeReady_withFlag,
      ih (g.checkNodeReady t) b]

/-- Claim C1 refuted on the embedded code: (i) the post-completion step
of `executeNode` is entirely independent of the stored
`enableDynamicScheduling` flag, and (ii) on a concrete two-node graph
with the flag `false`, completing the upstream node still flips the
downstream node from Pending to Ready and enqueues it, which the claim
says must not happen when the flag is `false`. The downstream node view
has one PUSH input endpoint with one incident edge and the value the
upstream run delivered in its buffer. -/
theorem c1_dynamic_flag_ignored :
    (∀ (g : SchedGraph) (b : Bool) (i : String),
      (g.withFlag b).executeNodeFinish i =
        (g.executeNodeFinish i).withFlag b) ∧
    (let gB : SchedGraph :=
      ⟨[("A", ⟨NodeState.completed, []⟩),
        ("B", ⟨NodeState.pending,
          [⟨DataFlowMode.push, [42], [⟨⟨[]⟩⟩]⟩]⟩)],
        [("A", ["B"])], [], [], false⟩
     let g2 := gB.executeNodeFinish "A"
     g2.enableDynamicScheduling = false ∧
     findAssoc g2.nodes "B" =
       some ⟨NodeState.ready, [⟨DataFlowMode.push, [42], [⟨⟨[]⟩⟩]⟩]⟩ ∧
     g2.readyQueue = ["B"] ∧
     g2.completedNodes = ["A"]) := by
  constructor
  · intro g b i
    unfold SchedGraph.executeNodeFinish
    have hsc : (g.withFlag b).outTargets = g.outTargets := rfl
    rw [hsc]
    cases h : findAssoc g.outTargets i with
    | none => rfl
    | some tgts =>
      exact foldl_checkNodeReady_withFlag tgts
        ⟨g.nodes, g.outTargets, g.readyQueue, g.completedNodes ++ [i],
          g.enableDynamicScheduling⟩ b
  · refine ⟨rfl, by rfl, rfl, rfl⟩

/-- Claim C4 refuted on the embedded control flow: with two source nodes
A (whose run throws) and B dispatched together under `maxConcurrency` 2,
and A settling first, `execute` rejects with A's error while B's
invocation is still in flight and unawaited; and (from `Node.execute`)
the throwing node itself transitions to Failed. The claim requires the
unawaited list to be empty. -/
theorem c4_failure_abandons_inflight :
    execLoop 4 2 ["A"] [⟨"A", true⟩, ⟨"B", false⟩] [] =
      ExecOutcome.rejected "A" ["B"] ∧
    ["B"] ≠ ([] : List String) ∧
    ((NodeCore.mk NodeState.running (some 0)).executeFinish false).state =
      NodeState.failed := by
  refine ⟨by rfl, by simp, rfl⟩

end SpecModel

namespace PairHeap

variable {V : Type}

lemma meld_eq (cmp : V → V → Int) (ia : Nat) (va : V) (ca : Forest V)
    (ib : Nat) (vb : V) (cb : Forest V) :
    meld cmp (.mk ia va ca) (.mk ib vb cb) =
      if cmp va vb ≤ 0 then .mk ia va (.cons (.mk ib vb cb) ca)
      else .mk ib vb (.cons (.mk ia va ca) cb) := rfl

lemma pairs_meld (cmp : V → V → Int) (a b : Tree V) :
    pairsT (meld cmp a b) = pairsT a + pairsT b := by
  cases a with | mk ia va ca =>
  cases b with | mk ib vb cb =>
  by_cases hle : cmp va vb ≤ 0
  · rw [meld_eq, if_pos hle]
    simp only [pairsT, pairsF, ← Multiset.singleton_add]
    abel
  · rw [meld_eq, if_neg hle]
    simp only [pairsT, pairsF, ← Multiset.singleton_add]
    abel

lemma hord_meld (cmp : V → V → Int)
    (htot : ∀ a b : V, cmp a b ≤ 0 ∨ cmp b a ≤ 0)
    (a b : Tree V) (ha : HOrdT cmp a) (hb : HOrdT cmp b) :
    HOrdT cmp (meld cmp a b) := by
  cases a with | mk ia va ca =>
  cases b with | mk ib vb cb =>
  unfold HOrdT at ha hb
  by_cases hle : cmp va vb ≤ 0
  · rw [meld_eq, if_pos hle]
    unfold HOrdT HOrdF
    exact ⟨hle, hb, ha⟩
  · rw [meld_eq, if_neg hle]
    have hba : cmp vb va ≤ 0 := by
      rcases htot va vb with h0 | h0
      · exact absurd h0 hle
      · exact h0
    unfold HOrdT HOrdF
    exact ⟨hba, ha, hb⟩

theorem pairs_mergePairs (cmp : V → V → Int) :
    ∀ f : Forest V, pairsO (mergePairs cmp f) = pairsF f
  | .nil => by simp [mergePairs, pairsO, pairsF]
  | .cons t .nil => by simp [mergePairs, pairsO, pairsF]
  | .cons a (.cons b rest) => by
    have ih := pairs_mergePairs cmp rest
    unfold mergePairs
    cases hmp : mergePairs cmp rest with
    | none =>
      rw [hmp] at ih
      simp only [pairsO] at ih
      show pairsO (some (meld cmp a b)) = _
      simp only [pairsO, pairs_meld, pairsF, ← ih]
      abel
    | some r =>
      rw [hmp] at ih
      simp only [pairsO] at ih
      show pairsO (some (meld cmp (meld cmp a b) r)) = _
      simp only [pairsO, pairs_meld, pairsF, ih]
      abel

theorem hord_mergePairs (cmp : V → V → Int)
    (htot : ∀ a b : V, cmp a b ≤ 0 ∨ cmp b a ≤ 0) :
    ∀ f : Forest V, HAllF cmp f →
      ∀ t, mergePairs cmp f = some t → HOrdT cmp t
  | .nil => by
    intro _ t ht
    simp [mergePairs] at ht
  | .cons t0 .nil => by
    intro hall t ht
    unfold HAllF at hall
    simp only [mergePairs, Option.some.injEq] at ht
    rw [← ht]
    exact hall.1
  | .cons a (.cons b rest) => by
    intro hall t ht
    unfold HAllF at hall
    have hA := hall.1
    have hB := hall.2.1
    have hrest := hall.2.2
    unfold mergePairs at ht
    cases hmp : mergePairs cmp rest with
    | none =>
      rw [hmp] at ht
      simp only [Option.some.injEq] at ht
      rw [← ht]
      exact hord_meld cmp htot a b hA hB
    | some r =>
      rw [hmp] at ht
      simp only [Option.some.injEq] at ht
      rw [← ht]
      exact hord_meld cmp htot _ r (hord_meld cmp htot a b hA hB)
        (hord_mergePairs cmp htot rest hrest r hmp)

/-! ### The root is a minimum -/
mutual
theorem rootLeT (cmp : V → V → Int)
    (htot : ∀ a b : V, cmp a b ≤ 0 ∨ cmp b a ≤ 0)
    (htrans : ∀ a b c : V, cmp a b ≤ 0 → cmp b c ≤ 0 → cmp a c ≤ 0) :
    ∀ t : Tree V, HOrdT cmp t →
      ∀ x ∈ (pairsT t).map Prod.snd, cmp t.val x ≤ 0
  | .mk i v cs => fun h x hx => by
    simp only [Tree.val]
    simp only [pairsT, Multiset.map_cons, Multiset.mem_cons] at hx
    rcases hx with hxe | hx
    · subst hxe
      rcases htot x x with h0 | h0 <;> exact h0
    · unfold HOrdT at h
      exact rootLeF cmp htot htrans v cs h x hx

theorem rootLeF (cmp : V → V → Int)
    (htot : ∀ a b : V, cmp a b ≤ 0 ∨ cmp b a ≤ 0)
    (htrans : ∀ a b c : V, cmp a b ≤ 0 → cmp b c ≤ 0 → cmp a c ≤ 0) :
    ∀ (v : V) (f : Forest V), HOrdF cmp v f →
      ∀ x ∈ (pairsF f).map Prod.snd, cmp v x ≤ 0
  | v, .nil => fun _ x hx => by simp [pairsF] at hx
  | v, .cons t f => fun h x hx => by
    unfold HOrdF at h
    obtain ⟨hle, ht, hf⟩ := h
    simp only [pairsF, Multiset.map_add, Multiset.mem_add] at hx
    rcases hx with hx | hx
    · exact htrans v t.val x hle (rootLeT cmp htot htrans t ht x hx)
    · exact rootLeF cmp htot htrans v f hf x hx
end

/-- Heap order at a leaf: any single node. -/
lemma hord_leaf (cmp : V → V → Int) (i : Nat) (v : V) :
    HOrdT cmp (.mk i v .nil) := by
  unfold HOrdT HOrdF
  trivial

/-- Heap order `HOrdF` gives `HAllF` of the child list. -/
theorem hallF_of_hordF (cmp : V → V → Int) :
    ∀ (v : V) (f : Forest V), HOrdF cmp v f → HAllF cmp f
  | _, .nil => fun _ => by unfold HAllF; trivial
  | v, .cons t f => fun h => by
    unfold HOrdF at h
    unfold HAllF
    exact ⟨h.2.1, hallF_of_hordF cmp v f h.2.2⟩

/-! ### Lemmas: cutting a subtree out -/
mutual
theorem removeSubT_pairs :
    ∀ (t : Tree V) (i : Nat) (t2 sub : Tree V),
      removeSubT t i = some (t2, sub) →
      pairsT t = pairsT t2 + pairsT sub ∧ sub.idOf = i
  | .mk j v cs, i, t2, sub => fun h => by
    unfold removeSubT at h
    cases hF : removeSubF cs i with
    | none => rw [hF] at h; exact absurd h (by simp)
    | some p =>
      obtain ⟨cs2, sub1⟩ := p
      rw [hF] at h
      simp only [Option.some.injEq, Prod.mk.injEq] at h
      obtain ⟨h1, h2⟩ := h
      subst h1 h2
      have hp := removeSubF_pairs cs i cs2 sub1 hF
      refine ⟨?_, hp.2⟩
      simp only [pairsT, hp.1, ← Multiset.singleton_add]
      abel

theorem removeSubF_pairs :
    ∀ (f : Forest V) (i : Nat) (f2 : Forest V) (sub : Tree V),
      removeSubF f i = some (f2, sub) →
      pairsF f = pairsF f2 + pairsT sub ∧ sub.idOf = i
  | .nil, i, f2, sub => fun h => by
    unfold removeSubF at h
    exact absurd h (by simp)
  | .cons t f, i, f2, sub => fun h => by
    unfold removeSubF at h
    by_cases hid : t.idOf = i
    · rw [if_pos hid] at h
      simp only [Option.some.injEq, Prod.mk.injEq] at h
      obtain ⟨h1, h2⟩ := h
      subst h1 h2
      refine ⟨?_, hid⟩
      simp only [pairsF]
      abel
    · rw [if_neg hid] at h
      cases hT : removeSubT t i with
      | some p =>
        obtain ⟨t2, sub1⟩ := p
        rw [hT] at h
        simp only [Option.some.injEq, Prod.mk.injEq] at h
        obtain ⟨h1, h2⟩ := h
        subst h1 h2
        have hp := removeSubT_pairs t i t2 sub1 hT
        refine ⟨?_, hp.2⟩
        simp only [pairsF, hp.1]
        abel
      | none =>
        rw [hT] at h
        cases hF : removeSubF f i with
        | none => rw [hF] at h; exact absurd h (by simp)
        | some q =>
          obtain ⟨g2, sub1⟩ := q
          rw [hF] at h
          simp only [Option.some.injEq, Prod.mk.injEq] at h
          obtain ⟨h1, h2⟩ := h
          subst h1 h2
          have hp := removeSubF_pairs f i g2 sub1 hF
          refine ⟨?_, hp.2⟩
          simp only [pairsF, hp.1]
          abel
end

mutual
theorem removeSubT_hord (cmp : V → V → Int) :
    ∀ (t : Tree V) (i : Nat) (t2 sub : Tree V), HOrdT cmp t →
      removeSubT t i = some (t2, sub) → HOrdT cmp t2 ∧ HOrdT cmp sub
  | .mk j v cs, i, t2, sub => fun ht h => by
    unfold removeSubT at h
    cases hF : removeSubF cs i with
    | none => rw [hF] at h; exact absurd h (by simp)
    | some p =>
      obtain ⟨cs2, sub1⟩ := p
      rw [hF] at h
      simp only [Option.some.injEq, Prod.mk.injEq] at h
      obtain ⟨h1, h2⟩ := h
      subst h1 h2
      unfold HOrdT at ht
      have hp := removeSubF_hord cmp v cs i cs2 sub1 ht hF
      exact ⟨by unfold HOrdT; exact hp.1, hp.2⟩

theorem removeSubF_hord (cmp : V → V → Int) :
    ∀ (v : V) (f : Forest V) (i : Nat) (f2 : Forest V) (sub : Tree V),
      HOrdF cmp v f → removeSubF f i = some (f2, sub) →
      HOrdF cmp v f2 ∧ HOrdT cmp sub
  | v, .nil, i, f2, sub => fun _ h => by
    unfold removeSubF at h
    exact absurd h (by simp)
  | v, .cons t f, i, f2, sub => fun hf h => by
    unfold HOrdF at hf
    obtain ⟨hle, ht, hrest⟩ := hf
    unfold removeSubF at h
    by_cases hid : t.idOf = i
    · rw [if_pos hid] at h
      simp only [Option.some.injEq, Prod.mk.injEq] at h
      obtain ⟨h1, h2⟩ := h
      subst h1 h2
      exact ⟨hrest, ht⟩
    · rw [if_neg hid] at h
      cases hT : removeSubT t i with
      | some p =>
        obtain ⟨t2, sub1⟩ := p
        rw [hT] at h
        simp only [Option.some.injEq, Prod.mk.injEq] at h
        obtain ⟨h1, h2⟩ := h
        subst h1 h2
        have hp := removeSubT_hord cmp t i t2 sub1 ht hT
        have hval : t2.val = t.val := by
          cases t with | mk jt vt cst =>
          unfold removeSubT at hT
          cases hF2 : removeSubF cst i with
          | none => rw [hF2] at hT; exact absurd hT (by simp)
          | some q =>
            obtain ⟨cs3, sub2⟩ := q
            rw [hF2] at hT
            simp only [Option.some.injEq, Prod.mk.injEq] at hT
            rw [← hT.1]
            rfl
        refine ⟨?_, hp.2⟩
        unfold HOrdF
        exact ⟨by rw [hval]; exact hle, hp.1, hrest⟩
      | none =>
        rw [hT] at h
        cases hF : removeSubF f i with
        | none => rw [hF] at h; exact absurd h (by simp)
        | some q =>
          obtain ⟨g2, sub1⟩ := q
          rw [hF] at h
          simp only [Option.some.injEq, Prod.mk.injEq] at h
          obtain ⟨h1, h2⟩ := h
          subst h1 h2
          have hp := removeSubF_hord cmp v f i g2 sub1 hrest hF
          refine ⟨?_, hp.2⟩
          unfold HOrdF
          exact ⟨hle, ht, hp.1⟩
end

mutual
theorem removeSubT_found :
    ∀ (t : Tree V) (i : Nat), t.idOf ≠ i →
      i ∈ (pairsT t).map Prod.fst → (removeSubT t i).isSome = true
  | .mk j v cs, i => fun hne hmem => by
    simp only [pairsT, Multiset.map_cons, Multiset.mem_cons] at hmem
    rcases hmem with hmem | hmem
    · exact absurd hmem.symm hne
    · have := removeSubF_found cs i hmem
      unfold removeSubT
      cases hF : removeSubF cs i with
      | none => rw [hF] at this; exact absurd this (by simp)
      | some p => rfl

theorem removeSubF_found :
    ∀ (f : Forest V) (i : Nat),
      i ∈ (pairsF f).map Prod.fst → (removeSubF f i).isSome = true
  | .nil, i => fun hmem => by simp [pairsF] at hmem
  | .cons t f, i => fun hmem => by
    unfold removeSubF
    by_cases hid : t.idOf = i
    · rw [if_pos hid]; rfl
    · rw [if_neg hid]
      simp only [pairsF, Multiset.map_add, Multiset.mem_add] at hmem
      cases hT : removeSubT t i with
      | some p => rfl
      | none =>
        rcases hmem with hmem | hmem
        · have := removeSubT_found t i hid hmem
          rw [hT] at this
          exact absurd this (by simp)
        · have := removeSubF_found f i hmem
          cases hF : removeSubF f i with
          | none => rw [hF] at this; exact absurd this (by simp)
          | some q => rfl
end

/-! ### Heap-level operation specifications -/
lemma heapPairs_mk (o : Option (Tree V)) (s n : Nat) :
    heapPairs (⟨o, s, n⟩ : Heap V) = pairsO o := by
  cases o <;> rfl

lemma map_fst_erase [DecidableEq V] (s : Multiset (Nat × V)) (p : Nat × V)
    (hp : p ∈ s) :
    (s.erase p).map Prod.fst = (s.map Prod.fst).erase p.1 := by
  have hc := Multiset.cons_erase hp
  calc (s.erase p).map Prod.fst
      = ((p ::ₘ s.erase p).map Prod.fst).erase p.1 := by
        rw [Multiset.map_cons, Multiset.erase_cons_head]
    _ = (s.map Prod.fst).erase p.1 := by rw [hc]

theorem hordF_mono (cmp : V → V → Int)
    (htrans : ∀ a b c : V, cmp a b ≤ 0 → cmp b c ≤ 0 → cmp a c ≤ 0) :
    ∀ (v w : V) (f : Forest V), cmp v w ≤ 0 → HOrdF cmp w f → HOrdF cmp v f
  | _, _, .nil => fun _ _ => by unfold HOrdF; trivial
  | v, w, .cons t f => fun hle h => by
    unfold HOrdF at h ⊢
    exact ⟨htrans v w t.val hle h.1, h.2.1,
      hordF_mono cmp htrans v w f hle h.2.2⟩

/-- Effect of `insert`: the fresh pair joins the heap, the handle is the old
allocation counter. -/
lemma insert_spec (cmp : V → V → Int) (h : Heap V) (v : V) :
    heapPairs (insert cmp h v).1 = (h.nextId, v) ::ₘ heapPairs h ∧
    (insert cmp h v).1.nextId = h.nextId + 1 ∧
    (insert cmp h v).1.size = h.size + 1 ∧
    (insert cmp h v).2 = h.nextId := by
  refine ⟨?_, rfl, rfl, rfl⟩
  cases hr : h.root with
  | none =>
    unfold insert
    rw [hr]
    unfold heapPairs
    rw [hr]
    simp [pairsT, pairsF]
  | some r =>
    unfold insert
    rw [hr]
    unfold heapPairs
    rw [hr]
    show pairsT (meld cmp r (.mk h.nextId v .nil)) = _
    rw [pairs_meld]
    simp only [pairsT, pairsF, ← Multiset.singleton_add]
    abel

lemma insert_inv (cmp : V → V → Int)
    (htot : ∀ a b : V, cmp a b ≤ 0 ∨ cmp b a ≤ 0)
    (h : Heap V) (v : V) (hi : Inv cmp h) :
    Inv cmp (insert cmp h v).1 := by
  obtain ⟨hpairs, hnext, hsize, -⟩ := insert_spec cmp h v
  have hids : heapIds (insert cmp h v).1 = h.nextId ::ₘ heapIds h := by
    unfold heapIds
    rw [hpairs, Multiset.map_cons]
  refine ⟨?_, ?_, ?_, ?_⟩
  · intro t ht
    cases hr : h.root with
    | none =>
      unfold insert at ht
      rw [hr] at ht
      simp only [Option.some.injEq] at ht
      rw [← ht]
      exact hord_leaf cmp h.nextId v
    | some r =>
      unfold insert at ht
      rw [hr] at ht
      simp only [Option.some.injEq] at ht
      rw [← ht]
      exact hord_meld cmp htot r _ (hi.hord r hr) (hord_leaf cmp h.nextId v)
  · rw [hids, Multiset.nodup_cons]
    exact ⟨fun hmem => absurd (hi.bound _ hmem) (by omega), hi.nodup⟩
  · intro i hmem
    rw [hids, Multiset.mem_cons] at hmem
    rw [hnext]
    rcases hmem with rfl | hmem
    · omega
    · have := hi.bound i hmem
      omega
  · rw [hsize, hpairs, Multiset.card_cons, hi.sizeEq]

lemma poll_none (cmp : V → V → Int) (h : Heap V) (hr : h.root = none) :
    poll cmp h = (none, h) := by
  unfold poll
  rw [hr]

/-- Effect of `poll` on a non-empty heap: returns the root value, which is a
comparator-minimum of all stored values; the root pair leaves the heap
and everything else stays; the invariant is preserved. -/
lemma poll_some (cmp : V → V → Int)
    (htot : ∀ a b : V, cmp a b ≤ 0 ∨ cmp b a ≤ 0)
    (h : Heap V) (t : Tree V) (hr : h.root = some t) (hi : Inv cmp h) :
    (poll cmp h).1 = some t.val ∧
    heapPairs h = (t.idOf, t.val) ::ₘ heapPairs (poll cmp h).2 ∧
    Inv cmp (poll cmp h).2 := by
  cases t with | mk i v cs =>
  have hpoll : poll cmp h =
      (some v, ⟨mergePairs cmp cs, h.size - 1, h.nextId⟩) := by
    unfold poll
    rw [hr]
  have hpairsh : heapPairs h = (i, v) ::ₘ pairsF cs := by
    unfold heapPairs
    rw [hr]
    rfl
  have hpairs2 : heapPairs (poll cmp h).2 = pairsF cs := by
    rw [hpoll, heapPairs_mk, pairs_mergePairs]
  have hordt := hi.hord _ hr
  unfold HOrdT at hordt
  refine ⟨by rw [hpoll]; rfl, by rw [hpairsh, hpairs2]; rfl, ?_, ?_, ?_, ?_⟩
  · intro t2 ht2
    rw [hpoll] at ht2
    exact hord_mergePairs cmp htot cs (hallF_of_hordF cmp v cs hordt) t2 ht2
  · have hids2 : heapIds (poll cmp h).2 = (heapIds h).erase i := by
      unfold heapIds
      rw [hpairs2, hpairsh]
      simp
    rw [hids2]
    exact Multiset.Nodup.erase i hi.nodup
  · intro j hj
    have hnx : (poll cmp h).2.nextId = h.nextId := by rw [hpoll]
    rw [hnx]
    refine hi.bound j ?_
    unfold heapIds at hj ⊢
    rw [hpairs2] at hj
    rw [hpairsh, Multiset.map_cons]
    exact Multiset.mem_cons_of_mem hj
  · have hsz2 : (poll cmp h).2.size = h.size - 1 := by rw [hpoll]
    rw [hsz2, hpairs2, hi.sizeEq, hpairsh, Multiset.card_cons]
    omega

/-- The minimum property of `poll` separately: every stored value is
comparator-at-least the returned one. -/
lemma poll_min (cmp : V → V → Int)
    (htot : ∀ a b : V, cmp a b ≤ 0 ∨ cmp b a ≤ 0)
    (htrans : ∀ a b c : V, cmp a b ≤ 0 → cmp b c ≤ 0 → cmp a c ≤ 0)
    (h : Heap V) (t : Tree V) (hr : h.root = some t) (hi : Inv cmp h) :
    ∀ x ∈ heapVals h, cmp t.val x ≤ 0 := by
  intro x hx
  unfold heapVals heapPairs at hx
  rw [hr] at hx
  exact rootLeT cmp htot htrans t (hi.hord t hr) x hx

/-- Applying `delete` on a live handle removes exactly that handle's pair and
preserves the invariant; the stored value is reported by `heapValAt`. -/
lemma delete_spec [DecidableEq V] (cmp : V → V → Int)
    (htot : ∀ a b : V, cmp a b ≤ 0 ∨ cmp b a ≤ 0)
    (h : Heap V) (i : Nat) (hi : Inv cmp h) (hmem : i ∈ heapIds h) :
    ∃ w, heapValAt h i = some w ∧ (i, w) ∈ heapPairs h ∧
      heapPairs (delete cmp h i) = (heapPairs h).erase (i, w) ∧
      (delete cmp h i).nextId = h.nextId ∧
      Inv cmp (delete cmp h i) := by
  cases hr : h.root with
  | none =>
    exfalso
    unfold heapIds heapPairs at hmem
    rw [hr] at hmem
    simp at hmem
  | some root =>
    have hordr := hi.hord root hr
    by_cases hid : root.idOf = i
    · -- the handle is the root: delete = poll
      have hdel : delete cmp h i = (poll cmp h).2 := by
        unfold delete
        rw [hr]
        dsimp only
        rw [if_pos hid]
      obtain ⟨-, hpairs, hinv⟩ := poll_some cmp htot h root hr hi
      refine ⟨root.val, ?_, ?_, ?_, ?_, by rw [hdel]; exact hinv⟩
      · unfold heapValAt
        rw [hr]
        dsimp only
        rw [if_pos hid]
      · rw [hpairs, hid]
        exact Multiset.mem_cons_self _ _
      · rw [hdel, hpairs, hid, Multiset.erase_cons_head]
      · rw [hdel]
        cases hroot2 : root with | mk j v cs =>
        have : poll cmp h = (some v,
            ⟨mergePairs cmp cs, h.size - 1, h.nextId⟩) := by
          unfold poll
          rw [hr, hroot2]
        rw [this]
    · -- a proper descendant: cut it out
      have hfound : (removeSubT root i).isSome = true := by
        refine removeSubT_found root i hid ?_
        unfold heapIds heapPairs at hmem
        rw [hr] at hmem
        exact hmem
      cases hT : removeSubT root i with
      | none => rw [hT] at hfound; exact absurd hfound (by simp)
      | some p =>
        obtain ⟨root2, sub⟩ := p
        obtain ⟨hpd, hsid⟩ := removeSubT_pairs root i root2 sub hT
        obtain ⟨hh2, hhsub⟩ := removeSubT_hord cmp root i root2 sub hordr hT
        cases sub with | mk si sv scs =>
        have hsi : i = si := hsid.symm
        subst hsi
        have hpairsh : heapPairs h = pairsT root2 + ((i, sv) ::ₘ pairsF scs) := by
          unfold heapPairs
          rw [hr]
          dsimp only
          rw [hpd]
          rfl
        have hvalat : heapValAt h i = some sv := by
          unfold heapValAt
          rw [hr]
          dsimp only
          rw [if_neg hid, hT]
          rfl
        have hdeleq : delete cmp h i =
            (match mergePairs cmp scs with
             | some cr =>
               (⟨some (meld cmp root2 cr), h.size - 1, h.nextId⟩ : Heap V)
             | none => ⟨some root2, h.size - 1, h.nextId⟩) := by
          unfold delete
          rw [hr]
          dsimp only
          rw [if_neg hid, hT]
          rfl
        unfold HOrdT at hhsub
        have hpmp := pairs_mergePairs cmp scs
        have hdelfacts : heapPairs (delete cmp h i) =
              pairsT root2 + pairsF scs ∧
            (delete cmp h i).nextId = h.nextId ∧
            (delete cmp h i).size = h.size - 1 ∧
            (∀ t2, (delete cmp h i).root = some t2 → HOrdT cmp t2) := by
          rw [hdeleq]
          cases hmp : mergePairs cmp scs with
          | none =>
            rw [hmp] at hpmp
            simp only [pairsO] at hpmp
            refine ⟨?_, rfl, rfl, ?_⟩
            · rw [heapPairs_mk]
              simp only [pairsO, ← hpmp, add_zero]
            · intro t2 ht2
              simp only [Option.some.injEq] at ht2
              rw [← ht2]
              exact hh2
          | some cr =>
            rw [hmp] at hpmp
            simp only [pairsO] at hpmp
            refine ⟨?_, rfl, rfl, ?_⟩
            · rw [heapPairs_mk]
              simp only [pairsO, pairs_meld, hpmp]
            · intro t2 ht2
              simp only [Option.some.injEq] at ht2
              rw [← ht2]
              refine hord_meld cmp htot root2 cr hh2 ?_
              exact hord_mergePairs cmp htot scs
                (hallF_of_hordF cmp sv scs hhsub) cr hmp
        obtain ⟨hdelpairs, hnext, hsz, hhord⟩ := hdelfacts
        have hmempair : (i, sv) ∈ heapPairs h := by
          rw [hpairsh]
          exact Multiset.mem_add.mpr (Or.inr (Multiset.mem_cons_self _ _))
        have herase : (heapPairs h).erase (i, sv) =
            pairsT root2 + pairsF scs := by
          rw [hpairsh, Multiset.erase_add_right_pos _
            (Multiset.mem_cons_self _ _), Multiset.erase_cons_head]
        refine ⟨sv, hvalat, hmempair, by rw [hdelpairs, herase], hnext, ?_⟩
        have hle2 : heapPairs (delete cmp h i) ≤ heapPairs h := by
          rw [hdelpairs, ← herase]
          exact Multiset.erase_le _ _
        refine ⟨hhord, ?_, ?_, ?_⟩
        · exact Multiset.nodup_of_le (Multiset.map_le_map hle2) hi.nodup
        · intro j hj
          rw [hnext]
          exact hi.bound j (Multiset.mem_of_le (Multiset.map_le_map hle2) hj)
        · rw [hsz, hdelpairs, ← herase, Multiset.card_erase_of_mem hmempair,
            hi.sizeEq]
          rfl

/-- Effect of `decrease` on a live handle: fails exactly when the comparator
orders the new value strictly above the handle's current value (the
check precedes any mutation, so failure is reported to the caller with
the heap untouched); on success the handle's pair is updated in place,
nothing else changes, and the invariant is preserved. -/
lemma decrease_spec [DecidableEq V] (cmp : V → V → Int)
    (htot : ∀ a b : V, cmp a b ≤ 0 ∨ cmp b a ≤ 0)
    (htrans : ∀ a b c : V, cmp a b ≤ 0 → cmp b c ≤ 0 → cmp a c ≤ 0)
    (h : Heap V) (i : Nat) (v : V) (hi : Inv cmp h)
    (w : V) (hw : heapValAt h i = some w) :
    (cmp v w > 0 → decrease cmp h i v = Except.error ()) ∧
    (cmp v w ≤ 0 → ∃ h2, decrease cmp h i v = Except.ok h2 ∧
      (i, w) ∈ heapPairs h ∧
      heapPairs h2 = (i, v) ::ₘ (heapPairs h).erase (i, w) ∧
      h2.size = h.size ∧ h2.nextId = h.nextId ∧ Inv cmp h2) := by
  cases hr : h.root with
  | none =>
    exfalso
    unfold heapValAt at hw
    rw [hr] at hw
    exact absurd hw (by simp)
  | some root =>
    have hordr := hi.hord root hr
    unfold heapValAt at hw
    rw [hr] at hw
    dsimp only at hw
    by_cases hid : root.idOf = i
    · rw [if_pos hid] at hw
      simp only [Option.some.injEq] at hw
      cases hroot : root with | mk j cv cs =>
      rw [hroot] at hw hid hordr
      have hji : j = i := hid
      have hcv : cv = w := hw
      subst hji hcv
      unfold HOrdT at hordr
      have hdec : decrease cmp h j v =
          (if cmp v cv > 0 then Except.error ()
           else Except.ok ⟨some (.mk j v cs), h.size, h.nextId⟩) := by
        unfold decrease
        rw [hr]
        dsimp only
        rw [hroot]
        rw [if_pos hid]
        rfl
      have hpairsh : heapPairs h = (j, cv) ::ₘ pairsF cs := by
        unfold heapPairs
        rw [hr, hroot]
        rfl
      constructor
      · intro hgt
        rw [hdec, if_pos hgt]
      · intro hle
        have hngt : ¬cmp v cv > 0 := by omega
        refine ⟨⟨some (.mk j v cs), h.size, h.nextId⟩,
          by rw [hdec, if_neg hngt], ?_, ?_, rfl, rfl, ?_, ?_, ?_, ?_⟩
        · rw [hpairsh]
          exact Multiset.mem_cons_self _ _
        · rw [heapPairs_mk, hpairsh, Multiset.erase_cons_head]
          rfl
        · intro t2 ht2
          simp only [Option.some.injEq] at ht2
          rw [← ht2]
          unfold HOrdT
          exact hordF_mono cmp htrans v cv cs hle hordr
        · show ((pairsO (some (Tree.mk j v cs))).map Prod.fst).Nodup
          have heq : (pairsO (some (Tree.mk j v cs))).map Prod.fst =
              (heapPairs h).map Prod.fst := by
            rw [hpairsh]
            simp [pairsO, pairsT]
          rw [heq]
          exact hi.nodup
        · intro k hk
          show k < h.nextId
          refine hi.bound k ?_
          unfold heapIds
          unfold heapIds at hk
          have heq : (heapPairs (⟨some (.mk j v cs), h.size, h.nextId⟩ :
              Heap V)).map Prod.fst = (heapPairs h).map Prod.fst := by
            rw [heapPairs_mk, hpairsh]
            simp [pairsO, pairsT]
          rw [heq] at hk
          exact hk
        · show h.size = Multiset.card (heapPairs _)
          rw [heapPairs_mk, hi.sizeEq, hpairsh]
          simp [pairsO, pairsT]
    · rw [if_neg hid] at hw
      cases hT : removeSubT root i with
      | none =>
        exfalso
        rw [hT] at hw
        exact absurd hw (by simp)
      | some p =>
        obtain ⟨root2, sub⟩ := p
        rw [hT] at hw
        simp only [Option.some.injEq] at hw
        obtain ⟨hpd, hsid⟩ := removeSubT_pairs root i root2 sub hT
        obtain ⟨hh2, hhsub⟩ := removeSubT_hord cmp root i root2 sub hordr hT
        cases sub with | mk si sv scs =>
        have hsi : i = si := hsid.symm
        subst hsi
        have hwv : sv = w := hw
        subst hwv
        unfold HOrdT at hhsub
        have hpairsh : heapPairs h =
            pairsT root2 + ((i, sv) ::ₘ pairsF scs) := by
          unfold heapPairs
          rw [hr]
          dsimp only
          rw [hpd]
          rfl
        have hdec : decrease cmp h i v =
            (if cmp v sv > 0 then Except.error ()
             else Except.ok ⟨some (meld cmp root2 (.mk i v scs)),
               h.size, h.nextId⟩) := by
          unfold decrease
          rw [hr]
          dsimp only
          rw [if_neg hid, hT]
          rfl
        constructor
        · intro hgt
          rw [hdec, if_pos hgt]
        · intro hle
          have hngt : ¬cmp v sv > 0 := by omega
          have hmempair : (i, sv) ∈ heapPairs h := by
            rw [hpairsh]
            exact Multiset.mem_add.mpr (Or.inr (Multiset.mem_cons_self _ _))
          have herase : (heapPairs h).erase (i, sv) =
              pairsT root2 + pairsF scs := by
            rw [hpairsh, Multiset.erase_add_right_pos _
              (Multiset.mem_cons_self _ _), Multiset.erase_cons_head]
          have hpairs2 : heapPairs (⟨some (meld cmp root2 (.mk i v scs)),
              h.size, h.nextId⟩ : Heap V) =
              pairsT root2 + ((i, v) ::ₘ pairsF scs) := by
            rw [heapPairs_mk]
            show pairsT (meld cmp root2 (.mk i v scs)) = _
            rw [pairs_meld]
            rfl
          refine ⟨⟨some (meld cmp root2 (.mk i v scs)), h.size, h.nextId⟩,
            by rw [hdec, if_neg hngt], hmempair, ?_, rfl, rfl, ?_, ?_, ?_, ?_⟩
          · rw [hpairs2, herase]
            simp only [← Multiset.singleton_add]
            abel
          · intro t2 ht2
            simp only [Option.some.injEq] at ht2
            rw [← ht2]
            refine hord_meld cmp htot root2 _ hh2 ?_
            unfold HOrdT
            exact hordF_mono cmp htrans v sv scs hle hhsub
          · show ((heapPairs _).map Prod.fst).Nodup
            have heq : (heapPairs (⟨some (meld cmp root2 (.mk i v scs)),
                h.size, h.nextId⟩ : Heap V)).map Prod.fst =
                (heapPairs h).map Prod.fst := by
              rw [hpairs2, hpairsh]
              simp
            rw [heq]
            exact hi.nodup
          · intro k hk
            show k < h.nextId
            refine hi.bound k ?_
            unfold heapIds at hk ⊢
            have heq : (heapPairs (⟨some (meld cmp root2 (.mk i v scs)),
                h.size, h.nextId⟩ : Heap V)).map Prod.fst =
                (heapPairs h).map Prod.fst := by
              rw [hpairs2, hpairsh]
              simp
            rw [heq] at hk
            exact hk
          · show h.size = Multiset.card (heapPairs _)
            rw [hpairs2, hi.sizeEq, hpairsh]
            simp

/-! ### Sequences of operations preserve the invariant -/
lemma Inv_empty (cmp : V → V → Int) : Inv cmp (Heap.empty : Heap V) := by
  refine ⟨?_, ?_, ?_, rfl⟩
  · intro t ht
    exact absurd ht (by simp [Heap.empty])
  · show ((heapPairs (Heap.empty : Heap V)).map Prod.fst).Nodup
    show ((0 : Multiset (Nat × V)).map Prod.fst).Nodup
    simp
  · intro i hmem
    exfalso
    revert hmem
    show i ∈ ((0 : Multiset (Nat × V)).map Prod.fst) → False
    simp

lemma poll_inv (cmp : V → V → Int)
    (htot : ∀ a b : V, cmp a b ≤ 0 ∨ cmp b a ≤ 0)
    (h : Heap V) (hi : Inv cmp h) : Inv cmp (poll cmp h).2 := by
  cases hr : h.root with
  | none => rw [poll_none cmp h hr]; exact hi
  | some t => exact (poll_some cmp htot h t hr hi).2.2

lemma validOps_insert (cmp : V → V → Int) (h : Heap V) (v : V)
    (rest : List (Op V)) :
    validOps cmp h (Op.insert v :: rest) =
      validOps cmp (runOp cmp h (Op.insert v)) rest := rfl

lemma validOps_poll (cmp : V → V → Int) (h : Heap V) (rest : List (Op V)) :
    validOps cmp h (Op.poll :: rest) =
      validOps cmp (runOp cmp h Op.poll) rest := rfl

lemma validOps_delete (cmp : V → V → Int) (h : Heap V) (i : Nat)
    (rest : List (Op V)) :
    validOps cmp h (Op.delete i :: rest) =
      (decide (i ∈ heapIds h) && validOps cmp (delete cmp h i) rest) := rfl

lemma runOps_inv [DecidableEq V] (cmp : V → V → Int)
    (htot : ∀ a b : V, cmp a b ≤ 0 ∨ cmp b a ≤ 0) :
    ∀ (ops : List (Op V)) (h : Heap V), Inv cmp h →
      validOps cmp h ops = true → Inv cmp (runOps cmp h ops)
  | [], _ => fun hi _ => hi
  | op :: rest, h => fun hi hv => by
    show Inv cmp (runOps cmp (runOp cmp h op) rest)
    cases op with
    | insert v =>
      rw [validOps_insert] at hv
      exact runOps_inv cmp htot rest _ (insert_inv cmp htot h v hi) hv
    | poll =>
      rw [validOps_poll] at hv
      exact runOps_inv cmp htot rest _ (poll_inv cmp htot h hi) hv
    | delete i =>
      rw [validOps_delete, Bool.and_eq_true, decide_eq_true_eq] at hv
      obtain ⟨w, -, -, -, -, hinv⟩ := delete_spec cmp htot h i hi hv.1
      exact runOps_inv cmp htot rest _ hinv hv.2

/-! ### Repeated extraction is sorted -/
lemma heapPairs_zero_root (h : Heap V) (hp : heapPairs h = 0) :
    h.root = none := by
  cases hr : h.root with
  | none => rfl
  | some t =>
    exfalso
    unfold heapPairs at hp
    rw [hr] at hp
    cases t with | mk i v cs =>
    simp [pairsT] at hp

theorem drain_spec (cmp : V → V → Int)
    (htot : ∀ a b : V, cmp a b ≤ 0 ∨ cmp b a ≤ 0)
    (htrans : ∀ a b c : V, cmp a b ≤ 0 → cmp b c ≤ 0 → cmp a c ≤ 0) :
    ∀ (n : Nat) (h : Heap V), Inv cmp h →
      n = Multiset.card (heapPairs h) →
      (↑(drain cmp n h) : Multiset V) = heapVals h ∧
      (drain cmp n h).Pairwise (fun a b => cmp a b ≤ 0)
  | 0, h => fun _ hn => by
    have hp0 : heapPairs h = 0 := Multiset.card_eq_zero.mp hn.symm
    constructor
    · show ↑([] : List V) = heapVals h
      unfold heapVals
      rw [hp0]
      rfl
    · exact List.Pairwise.nil
  | n + 1, h => fun hi hn => by
    cases hr : h.root with
    | none =>
      exfalso
      have hp0 : heapPairs h = 0 := by
        unfold heapPairs
        rw [hr]
      rw [hp0] at hn
      simp at hn
    | some t =>
      obtain ⟨hv1, hpair, hinv⟩ := poll_some cmp htot h t hr hi
      have hmin := poll_min cmp htot htrans h t hr hi
      have hpoll : poll cmp h = (some t.val, (poll cmp h).2) := by
        calc poll cmp h = ((poll cmp h).1, (poll cmp h).2) := rfl
          _ = (some t.val, (poll cmp h).2) := by rw [hv1]
      have hcard2 : n = Multiset.card (heapPairs (poll cmp h).2) := by
        have hc := congrArg Multiset.card hpair
        rw [Multiset.card_cons] at hc
        omega
      obtain ⟨ih1, ih2⟩ :=
        drain_spec cmp htot htrans n (poll cmp h).2 hinv hcard2
      have hdr : drain cmp (n + 1) h =
          t.val :: drain cmp n (poll cmp h).2 := by
        show (match poll cmp h with
          | (some v, h2) => v :: drain cmp n h2
          | (none, _) => []) = t.val :: drain cmp n (poll cmp h).2
        rw [hpoll]
      have hvals : heapVals h = t.val ::ₘ heapVals (poll cmp h).2 := by
        unfold heapVals
        rw [hpair, Multiset.map_cons]
      rw [hdr]
      constructor
      · rw [show ((t.val :: drain cmp n (poll cmp h).2 : List V) :
            Multiset V) = t.val ::ₘ ↑(drain cmp n (poll cmp h).2) from rfl,
          ih1, hvals]
      · rw [List.pairwise_cons]
        refine ⟨?_, ih2⟩
        intro x hx
        refine hmin x ?_
        rw [hvals]
        refine Multiset.mem_cons_of_mem ?_
        rw [← ih1]
        exact hx

/-! ### Insert phase: consecutive handles -/
lemma map_snd_erase [DecidableEq V] (s : Multiset (Nat × V)) (p : Nat × V)
    (hp : p ∈ s) :
    (s.erase p).map Prod.snd = (s.map Prod.snd).erase p.2 := by
  have hc := Multiset.cons_erase hp
  calc (s.erase p).map Prod.snd
      = ((p ::ₘ s.erase p).map Prod.snd).erase p.2 := by
        rw [Multiset.map_cons, Multiset.erase_cons_head]
    _ = (s.map Prod.snd).erase p.2 := by rw [hc]

theorem insert_phase (cmp : V → V → Int)
    (htot : ∀ a b : V, cmp a b ≤ 0 ∨ cmp b a ≤ 0) :
    ∀ (vs : List V) (h : Heap V), Inv cmp h →
      heapPairs (runOps cmp h (vs.map Op.insert)) =
        heapPairs h + ↑(List.enumFrom h.nextId vs) ∧
      (runOps cmp h (vs.map Op.insert)).nextId = h.nextId + vs.length ∧
      Inv cmp (runOps cmp h (vs.map Op.insert))
  | [], h => fun hi => by
    refine ⟨?_, ?_, hi⟩
    · show heapPairs h = heapPairs h +
        ↑(List.enumFrom h.nextId ([] : List V))
      simp [List.enumFrom]
    · show h.nextId = h.nextId + ([] : List V).length
      simp
  | v :: vs, h => fun hi => by
    obtain ⟨hp, hn, -, -⟩ := insert_spec cmp h v
    have hinv2 := insert_inv cmp htot h v hi
    obtain ⟨ih1, ih2, ih3⟩ := insert_phase cmp htot vs (insert cmp h v).1 hinv2
    refine ⟨?_, ?_, ih3⟩
    · show heapPairs (runOps cmp (runOp cmp h (Op.insert v))
        (vs.map Op.insert)) = _
      rw [show runOp cmp h (Op.insert v) = (insert cmp h v).1 from rfl,
        ih1, hp, hn]
      rw [show List.enumFrom h.nextId (v :: vs) =
        (h.nextId, v) :: List.enumFrom (h.nextId + 1) vs from rfl]
      rw [show ((((h.nextId, v) :: List.enumFrom (h.nextId + 1) vs) :
        List (Nat × V)) : Multiset (Nat × V)) =
        (h.nextId, v) ::ₘ ↑(List.enumFrom (h.nextId + 1) vs) from rfl]
      simp only [← Multiset.singleton_add]
      abel
    · show (runOps cmp (runOp cmp h (Op.insert v))
        (vs.map Op.insert)).nextId = _
      rw [show runOp cmp h (Op.insert v) = (insert cmp h v).1 from rfl,
        ih2, hn]
      simp only [List.length_cons]
      omega

/-! ### Deleting all live handles empties the heap -/
theorem delete_all [DecidableEq V] (cmp : V → V → Int)
    (htot : ∀ a b : V, cmp a b ≤ 0 ∨ cmp b a ≤ 0) :
    ∀ (perm : List Nat) (h : Heap V), Inv cmp h →
      heapIds h = ↑perm →
      (runOps cmp h (perm.map Op.delete)).root = none ∧
      (runOps cmp h (perm.map Op.delete)).size = 0
  | [], h => fun hi hids => by
    have hp0 : heapPairs h = 0 := by
      have hm : (heapPairs h).map Prod.fst = 0 := hids
      exact (Multiset.map_eq_zero).mp hm
    constructor
    · show h.root = none
      exact heapPairs_zero_root h hp0
    · show h.size = 0
      rw [hi.sizeEq, hp0]
      rfl
  | i :: rest, h => fun hi hids => by
    have hmem : i ∈ heapIds h := by
      rw [hids]
      exact Multiset.mem_coe.mpr (List.mem_cons_self i rest)
    obtain ⟨w, -, hpair, hpairs, -, hinv⟩ := delete_spec cmp htot h i hi hmem
    have hids2 : heapIds (delete cmp h i) = ↑rest := by
      show (heapPairs (delete cmp h i)).map Prod.fst = _
      rw [hpairs, map_fst_erase _ _ hpair]
      rw [show (heapPairs h).map Prod.fst = heapIds h from rfl, hids]
      rw [show ((i :: rest : List Nat) : Multiset Nat) =
        i ::ₘ ↑rest from rfl]
      exact Multiset.erase_cons_head i ↑rest
    show (runOps cmp (runOp cmp h (Op.delete i)) (rest.map Op.delete)).root
        = none ∧ _
    exact delete_all cmp htot rest (delete cmp h i) hinv hids2

/-! ### Deleting a subset filters the content -/
theorem delete_subset [DecidableEq V] (cmp : V → V → Int)
    (htot : ∀ a b : V, cmp a b ≤ 0 ∨ cmp b a ≤ 0) :
    ∀ (del : List Nat) (h : Heap V), Inv cmp h → del.Nodup →
      (∀ i ∈ del, i ∈ heapIds h) →
      heapPairs (runOps cmp h (del.map Op.delete)) =
        (heapPairs h).filter (fun p => p.1 ∉ del) ∧
      Inv cmp (runOps cmp h (del.map Op.delete))
  | [], h => fun hi _ _ => by
    refine ⟨?_, hi⟩
    show heapPairs h = _
    rw [Multiset.filter_eq_self.mpr]
    intro p _
    simp
  | i :: rest, h => fun hi hnd hmem => by
    rw [List.nodup_cons] at hnd
    have hmi : i ∈ heapIds h := hmem i (List.mem_cons_self i rest)
    obtain ⟨w, -, hpair, hpairs, -, hinv⟩ := delete_spec cmp htot h i hi hmi
    -- decompose: the pair (i, w) is the unique one with handle i
    obtain ⟨s, hs⟩ : ∃ s, heapPairs h = (i, w) ::ₘ s :=
      ⟨(heapPairs h).erase (i, w), (Multiset.cons_erase hpair).symm⟩
    have hsid : ∀ p ∈ s, p.1 ≠ i := by
      intro p hp hpe
      have hnodup := hi.nodup
      rw [show heapIds h = (heapPairs h).map Prod.fst from rfl, hs] at hnodup
      simp only [Multiset.map_cons, Multiset.nodup_cons] at hnodup
      exact hnodup.1 (by rw [← hpe]; exact Multiset.mem_map_of_mem Prod.fst hp)
    have herase_eq : (heapPairs h).erase (i, w) = s := by
      rw [hs, Multiset.erase_cons_head]
    have herase_filter : (heapPairs h).erase (i, w) =
        (heapPairs h).filter (fun p => p.1 ≠ i) := by
      rw [herase_eq, hs, Multiset.filter_cons]
      simp only [ne_eq, not_true_eq_false, if_neg]
      rw [Multiset.filter_eq_self.mpr hsid]
      simp
    have hmem2 : ∀ j ∈ rest, j ∈ heapIds (delete cmp h i) := by
      intro j hj
      have hjne : j ≠ i := fun hje => hnd.1 (hje ▸ hj)
      have hjh : j ∈ heapIds h := hmem j (List.mem_cons_of_mem i hj)
      show j ∈ (heapPairs (delete cmp h i)).map Prod.fst
      rw [hpairs, map_fst_erase _ _ hpair]
      exact Multiset.mem_erase_of_ne hjne |>.mpr hjh
    obtain ⟨ih1, ih2⟩ :=
      delete_subset cmp htot rest (delete cmp h i) hinv hnd.2 hmem2
    refine ⟨?_, ih2⟩
    show heapPairs (runOps cmp (runOp cmp h (Op.delete i))
      (rest.map Op.delete)) = _
    rw [show runOp cmp h (Op.delete i) = delete cmp h i from rfl, ih1,
      hpairs, herase_filter, Multiset.filter_filter]
    refine Multiset.filter_congr fun p _ => ?_
    constructor
    · rintro ⟨h1, h2⟩
      intro hmemc
      rcases List.mem_cons.mp hmemc with hh | hh
      · exact h2 hh
      · exact h1 hh
    · intro hnotin
      exact ⟨fun hh => hnotin (List.mem_cons_of_mem i hh),
        fun hh => hnotin (hh ▸ List.mem_cons_self i rest)⟩

lemma runOps_append (cmp : V → V → Int) :
    ∀ (a b : List (Op V)) (h : Heap V),
      runOps cmp h (a ++ b) = runOps cmp (runOps cmp h a) b
  | [], _, _ => rfl
  | op :: rest, b, h => by
    show runOps cmp (runOp cmp h op) (rest ++ b) = _
    exact runOps_append cmp rest b (runOp cmp h op)

/-- Claim C6: for the addressable pairing heap under a total transitive
comparator, (a) after any sequence of insert, poll and delete(handle)
operations, `poll` removes and returns a comparator-minimum of the
elements currently in the heap; (b) given inserts with unique values,
deleting each handle in an arbitrary order yields an empty heap; and
(c) deleting a subset of the handles preserves the min-extract order
over the surviving elements: repeated polling returns exactly the
surviving values, comparator-sorted. -/
theorem c6_heap_poll_delete [DecidableEq V] (cmp : V → V → Int)
    (htot : ∀ a b : V, cmp a b ≤ 0 ∨ cmp b a ≤ 0)
    (htrans : ∀ a b c : V, cmp a b ≤ 0 → cmp b c ≤ 0 → cmp a c ≤ 0) :
    (∀ ops : List (Op V), validOps cmp Heap.empty ops = true →
      ∀ m h2, poll cmp (runOps cmp Heap.empty ops) = (some m, h2) →
        m ∈ heapVals (runOps cmp Heap.empty ops) ∧
        (∀ x ∈ heapVals (runOps cmp Heap.empty ops), cmp m x ≤ 0) ∧
        heapVals (runOps cmp Heap.empty ops) = m ::ₘ heapVals h2) ∧
    (∀ vs : List V, vs.Nodup → ∀ perm : List Nat,
      perm.Perm (List.range vs.length) →
      (runOps cmp Heap.empty
        (vs.map Op.insert ++ perm.map Op.delete)).root = none ∧
      (runOps cmp Heap.empty
        (vs.map Op.insert ++ perm.map Op.delete)).size = 0) ∧
    (∀ (vs : List V) (del : List Nat), del.Nodup →
      (∀ i ∈ del, i < vs.length) →
      (drain cmp
        (Multiset.card (heapPairs (runOps cmp Heap.empty
          (vs.map Op.insert ++ del.map Op.delete))))
        (runOps cmp Heap.empty
          (vs.map Op.insert ++ del.map Op.delete))).Pairwise
        (fun a b => cmp a b ≤ 0) ∧
      (↑(drain cmp
        (Multiset.card (heapPairs (runOps cmp Heap.empty
          (vs.map Op.insert ++ del.map Op.delete))))
        (runOps cmp Heap.empty
          (vs.map Op.insert ++ del.map Op.delete))) : Multiset V) =
        ↑((vs.enum.filter fun p => decide (p.1 ∉ del)).map Prod.snd)) := by
  have hbase : ∀ vs : List V,
      heapPairs (runOps cmp Heap.empty (vs.map Op.insert)) = ↑vs.enum ∧
      heapIds (runOps cmp Heap.empty (vs.map Op.insert)) =
        ↑(List.range vs.length) ∧
      Inv cmp (runOps cmp Heap.empty (vs.map Op.insert)) := by
    intro vs
    obtain ⟨h1, -, h3⟩ :=
      insert_phase cmp htot vs Heap.empty (Inv_empty cmp)
    have hp : heapPairs (runOps cmp Heap.empty (vs.map Op.insert)) =
        ↑vs.enum := by
      rw [h1]
      show heapPairs (Heap.empty : Heap V) + _ = _
      rw [show heapPairs (Heap.empty : Heap V) = 0 from rfl, zero_add]
      rfl
    refine ⟨hp, ?_, h3⟩
    show (heapPairs _).map Prod.fst = _
    rw [hp, Multiset.map_coe, List.enum_map_fst]
  refine ⟨?_, ?_, ?_⟩
  · -- (a) poll returns a minimum
    intro ops hv m h2 hpoll
    have hinv := runOps_inv cmp htot ops Heap.empty (Inv_empty cmp) hv
    cases hr : (runOps cmp Heap.empty ops).root with
    | none =>
      exfalso
      rw [poll_none cmp _ hr] at hpoll
      simp at hpoll
    | some t =>
      obtain ⟨hv1, hpair, -⟩ := poll_some cmp htot _ t hr hinv
      have hmin := poll_min cmp htot htrans _ t hr hinv
      have hm : m = t.val := by
        have h1 : (poll cmp (runOps cmp Heap.empty ops)).1 = some m :=
          congrArg Prod.fst hpoll
        rw [hv1] at h1
        exact ((Option.some.injEq _ _).mp h1).symm
      have hh2 : h2 = (poll cmp (runOps cmp Heap.empty ops)).2 :=
        (congrArg Prod.snd hpoll).symm
      have hvals : heapVals (runOps cmp Heap.empty ops) =
          t.val ::ₘ heapVals h2 := by
        unfold heapVals
        rw [hpair, Multiset.map_cons, hh2]
      subst hm
      refine ⟨?_, hmin, hvals⟩
      rw [hvals]
      exact Multiset.mem_cons_self _ _
  · -- (b) deleting every handle empties the heap
    intro vs _ perm hperm
    obtain ⟨-, hids, hinv⟩ := hbase vs
    rw [runOps_append]
    refine delete_all cmp htot perm _ hinv ?_
    rw [hids]
    exact (Multiset.coe_eq_coe.mpr hperm).symm
  · -- (c) survivors drain in comparator order
    intro vs del hnd hlt
    obtain ⟨hpairs0, hids, hinv⟩ := hbase vs
    have hlive : ∀ i ∈ del, i ∈ heapIds (runOps cmp Heap.empty
        (vs.map Op.insert)) := by
      intro i hi2
      rw [hids]
      exact Multiset.mem_coe.mpr (List.mem_range.mpr (hlt i hi2))
    obtain ⟨hpairs1, hinv1⟩ :=
      delete_subset cmp htot del _ hinv hnd hlive
    have happ : runOps cmp Heap.empty
        (vs.map Op.insert ++ del.map Op.delete) =
        runOps cmp (runOps cmp Heap.empty (vs.map Op.insert))
          (del.map Op.delete) := runOps_append cmp _ _ _
    rw [happ]
    obtain ⟨hd1, hd2⟩ := drain_spec cmp htot htrans
      (Multiset.card (heapPairs (runOps cmp
        (runOps cmp Heap.empty (vs.map Op.insert)) (del.map Op.delete))))
      (runOps cmp (runOps cmp Heap.empty (vs.map Op.insert))
        (del.map Op.delete)) hinv1 rfl
    have hponly : heapPairs (runOps cmp
        (runOps cmp Heap.empty (vs.map Op.insert)) (del.map Op.delete)) =
        ↑(vs.enum.filter fun p => decide (p.1 ∉ del)) := by
      rw [hpairs1, hpairs0, Multiset.filter_coe]
    refine ⟨hd2, ?_⟩
    rw [hd1]
    unfold heapVals
    rw [hponly, Multiset.map_coe]

/-- Claim C7: after any sequence of operations, `decrease(handle, v)` on
a live handle with current value `w` fails exactly when the comparator
orders `v` strictly greater than `w` (the failure is an exception to the
direct caller, raised before any mutation); on success the handle's
value becomes `v`, the other contents, the handle set and the size are
unchanged, and min-extraction remains correct: repeated polling returns
all stored values in comparator order. -/
theorem c7_decrease [DecidableEq V] (cmp : V → V → Int)
    (htot : ∀ a b : V, cmp a b ≤ 0 ∨ cmp b a ≤ 0)
    (htrans : ∀ a b c : V, cmp a b ≤ 0 → cmp b c ≤ 0 → cmp a c ≤ 0) :
    ∀ ops : List (Op V), validOps cmp Heap.empty ops = true →
    ∀ (i : Nat) (v w : V),
      heapValAt (runOps cmp Heap.empty ops) i = some w →
      ((decrease cmp (runOps cmp Heap.empty ops) i v = Except.error ()) ↔
        cmp v w > 0) ∧
      (∀ h2, decrease cmp (runOps cmp Heap.empty ops) i v = Except.ok h2 →
        heapVals h2 =
          v ::ₘ (heapVals (runOps cmp Heap.empty ops)).erase w ∧
        heapIds h2 = heapIds (runOps cmp Heap.empty ops) ∧
        h2.size = (runOps cmp Heap.empty ops).size ∧
        (drain cmp (Multiset.card (heapPairs h2)) h2).Pairwise
          (fun a b => cmp a b ≤ 0) ∧
        (↑(drain cmp (Multiset.card (heapPairs h2)) h2) : Multiset V) =
          heapVals h2) := by
  intro ops hvops i v w hw
  have hinv := runOps_inv cmp htot ops Heap.empty (Inv_empty cmp) hvops
  obtain ⟨herr, hok⟩ :=
    decrease_spec cmp htot htrans (runOps cmp Heap.empty ops) i v hinv w hw
  constructor
  · constructor
    · intro he
      by_cases hgt : cmp v w > 0
      · exact hgt
      · exfalso
        obtain ⟨h2, hk, -⟩ := hok (by omega)
        rw [he] at hk
        exact absurd hk (by simp)
    · exact herr
  · intro h2 hk
    by_cases hgt : cmp v w > 0
    · exfalso
      rw [herr hgt] at hk
      exact absurd hk (by simp)
    · obtain ⟨h2b, hkb, hmempair, hpairs2, hsz, -, hinv2⟩ := hok (by omega)
      have hh2 : h2b = h2 := by
        rw [hk] at hkb
        exact ((Except.ok.injEq _ _).mp hkb).symm
      subst hh2
      have hids2 : heapIds h2b = heapIds (runOps cmp Heap.empty ops) := by
        show (heapPairs h2b).map Prod.fst = _
        rw [hpairs2, Multiset.map_cons, map_fst_erase _ _ hmempair]
        show (i, v).1 ::ₘ _ = _
        rw [show ((i, v).1 : Nat) = ((i, w).1 : Nat) from rfl]
        exact Multiset.cons_erase
          (Multiset.mem_map_of_mem Prod.fst hmempair)
      obtain ⟨hd1, hd2⟩ := drain_spec cmp htot htrans
        (Multiset.card (heapPairs h2b)) h2b hinv2 rfl
      refine ⟨?_, hids2, hsz, hd2, hd1⟩
      show (heapPairs h2b).map Prod.snd = _
      rw [hpairs2, Multiset.map_cons, map_snd_erase _ _ hmempair]
      rfl

/-- Witness for C6 with the integer comparator `a - b`: polling after
inserting 3, 1, 2 returns the minimum 1; inserting [5, 3, 4] and then
deleting the three handles in the order 1, 0, 2 empties the heap;
deleting only handle 1 (value 3) drains the survivors 4, 5 in order. -/
theorem c6_witness :
    ((1 : Int) ∈ heapVals (runOps (fun a b : Int => a - b) Heap.empty
      [Op.insert 3, Op.insert 1, Op.insert 2])) ∧
    heapVals (runOps (fun a b : Int => a - b) Heap.empty
        [Op.insert 3, Op.insert 1, Op.insert 2]) =
      1 ::ₘ heapVals (poll (fun a b : Int => a - b)
        (runOps (fun a b : Int => a - b) Heap.empty
          [Op.insert 3, Op.insert 1, Op.insert 2])).2 ∧
    (1 : Int) - 3 ≤ 0 ∧
    (runOps (fun a b : Int => a - b) Heap.empty
      (([5, 3, 4] : List Int).map Op.insert ++
        ([1, 0, 2].map Op.delete))).root = none ∧
    (runOps (fun a b : Int => a - b) Heap.empty
      (([5, 3, 4] : List Int).map Op.insert ++
        ([1, 0, 2].map Op.delete))).size = 0 ∧
    (drain (fun a b : Int => a - b)
      (Multiset.card (heapPairs (runOps (fun a b : Int => a - b) Heap.empty
        (([5, 3, 4] : List Int).map Op.insert ++ ([1].map Op.delete)))))
      (runOps (fun a b : Int => a - b) Heap.empty
        (([5, 3, 4] : List Int).map Op.insert ++
          ([1].map Op.delete)))).Pairwise
      (fun a b : Int => a - b ≤ 0) ∧
    (↑(drain (fun a b : Int => a - b)
      (Multiset.card (heapPairs (runOps (fun a b : Int => a - b) Heap.empty
        (([5, 3, 4] : List Int).map Op.insert ++ ([1].map Op.delete)))))
      (runOps (fun a b : Int => a - b) Heap.empty
        (([5, 3, 4] : List Int).map Op.insert ++
          ([1].map Op.delete)))) : Multiset Int) =
      ↑((([5, 3, 4] : List Int).enum.filter
        fun p => decide (p.1 ∉ [1])).map Prod.snd) := by
  have hall := c6_heap_poll_delete (fun a b : Int => a - b)
    (fun a b => by show a - b ≤ 0 ∨ b - a ≤ 0; omega)
    (fun a b c h1 h2 => by
      have h1b : a - b ≤ 0 := h1
      have h2b : b - c ≤ 0 := h2
      show a - c ≤ 0
      omega)
  have hA := hall.1 [Op.insert 3, Op.insert 1, Op.insert 2] (by rfl)
    1 (poll (fun a b : Int => a - b)
      (runOps (fun a b : Int => a - b) Heap.empty
        [Op.insert 3, Op.insert 1, Op.insert 2])).2 (by rfl)
  have hB := hall.2.1 ([5, 3, 4] : List Int) (by decide) [1, 0, 2]
    (by decide)
  have hC := hall.2.2 ([5, 3, 4] : List Int) [1] (by decide) (by decide)
  exact ⟨hA.1, hA.2.2, hA.2.1 3 (by decide), hB.1, hB.2, hC.1, hC.2⟩

/-- Witness for C7 with the integer comparator `a - b`: after inserting
5 and 3, handle 0 stores 5; `decrease(0, 7)` fails (7 is not lower),
while `decrease(0, 1)` succeeds, replacing 5 by 1 while keeping handle
set and size, and the heap still drains in sorted order. -/
theorem c7_witness :
    decrease (fun a b : Int => a - b)
      (runOps (fun a b : Int => a - b) Heap.empty
        [Op.insert 5, Op.insert 3]) 0 7 = Except.error () ∧
    heapVals (Heap.mk (some (Tree.mk 0 1
        (Forest.cons (Tree.mk 1 3 Forest.nil) Forest.nil))) 2 2) =
      1 ::ₘ (heapVals (runOps (fun a b : Int => a - b) Heap.empty
        [Op.insert 5, Op.insert 3])).erase 5 ∧
    heapIds (Heap.mk (some (Tree.mk 0 1
        (Forest.cons (Tree.mk 1 3 Forest.nil) Forest.nil))) 2 2) =
      heapIds (runOps (fun a b : Int => a - b) Heap.empty
        [Op.insert 5, Op.insert 3]) ∧
    (drain (fun a b : Int => a - b)
      (Multiset.card (heapPairs (Heap.mk (some (Tree.mk 0 1
        (Forest.cons (Tree.mk 1 3 Forest.nil) Forest.nil))) 2 2)))
      (Heap.mk (some (Tree.mk 0 1
        (Forest.cons (Tree.mk 1 3 Forest.nil) Forest.nil))) 2 2)).Pairwise
      (fun a b : Int => a - b ≤ 0) := by
  have herr := (c7_decrease (fun a b : Int => a - b)
    (fun a b => by show a - b ≤ 0 ∨ b - a ≤ 0; omega)
    (fun a b c h1 h2 => by
      have h1b : a - b ≤ 0 := h1
      have h2b : b - c ≤ 0 := h2
      show a - c ≤ 0
      omega)
    [Op.insert 5, Op.insert 3] (by rfl) 0 7 5 (by rfl)).1.mpr (by decide)
  have hok := (c7_decrease (fun a b : Int => a - b)
    (fun a b => by show a - b ≤ 0 ∨ b - a ≤ 0; omega)
    (fun a b c h1 h2 => by
      have h1b : a - b ≤ 0 := h1
      have h2b : b - c ≤ 0 := h2
      show a - c ≤ 0
      omega)
    [Op.insert 5, Op.insert 3] (by rfl) 0 1 5 (by rfl)).2
    (Heap.mk (some (Tree.mk 0 1
      (Forest.cons (Tree.mk 1 3 Forest.nil) Forest.nil))) 2 2) (by rfl)
  exact ⟨herr, hok.1, hok.2.1, hok.2.2.2.1⟩

end PairHeap
